import Mathlib

/-!
Verification of the trie-driven tokenizer in `src/lex.cpp` (LAK132/lex).

The development shallowly embeds the two components of the program:

* `lak::suffix_trie_t<T>` — a compressed prefix trie with insertion
  (`set`, with path splitting), single-byte child lookup (`find_partial`),
  one-level exact lookup (`find_exact`) and `isTerminal`;
* `lex::next_token` — the maximal-munch scanner with word-boundary rules,
  together with the character classification helpers.

C++ strings are embedded as `List Char`; `std::unordered_map<char, ...>`
as an association list with at most one binding per character (the
well-formedness predicate `wfCh` records this, together with the
sibling-key invariant of the trie).  `std::istream` is embedded as a list
of remaining characters plus a `good` flag: reading past the end sets
`good := false` (eofbit/failbit), after which every read fails, exactly
as in the C++ stream discipline used by `next_token`.  `(char)EOF`
is the byte 255.  `str[0]` on an empty `std::string` yields `'\0'`,
which the embedding renders as `List.headD NULC`.
-/

set_option linter.unusedVariables false

/-- The NUL character: value of `str[0]` for an empty C++ string. -/
def NULC : Char := Char.ofNat 0

/-- The byte produced by `(char)EOF` (`(char)(-1)` = `'\xff'`). -/
def EOFC : Char := Char.ofNat 255

/-- Embedding of `lak::suffix_trie_t<V>`: a node holds its key segment,
its value list and an association list of children keyed by a byte. -/
inductive Trie (V : Type) : Type where
  | node (key : List Char) (values : List V) (children : List (Char × Trie V)) : Trie V

/-- The `key` field of a trie node. -/
def Trie.key {V : Type} : Trie V → List Char
  | .node k _ _ => k

/-- The `values` field of a trie node. -/
def Trie.values {V : Type} : Trie V → List V
  | .node _ v _ => v

/-- The `children` field of a trie node. -/
def Trie.children {V : Type} : Trie V → List (Char × Trie V)
  | .node _ _ ch => ch

/-- `children.find(c)` on the association list embedding of the map. -/
def lookupChild {V : Type} : List (Char × Trie V) → Char → Option (Trie V)
  | [], _ => none
  | (a, u) :: r, c => if a = c then some u else lookupChild r c

/-- `children[c] = v` on the association list embedding: replace the
binding for `c` if present, otherwise append a new one. -/
def updChild {V : Type} : List (Char × Trie V) → Char → Trie V → List (Char × Trie V)
  | [], c, v => [(c, v)]
  | (a, u) :: r, c, v => if a = c then (c, v) :: r else (a, u) :: updChild r c v

/-- `strncmp(a, b, n) == 0` over the `c_str()` buffers of `a` and `b`:
comparison stops at a mismatch, after `n` characters, or at a NUL that
both sides share (positions past a list's end read as the terminator). -/
def strncmpEq : Nat → List Char → List Char → Bool
  | 0, _, _ => true
  | _+1, [], [] => true
  | _+1, [], b :: _ => decide (b = NULC)
  | _+1, a :: _, [] => decide (a = NULC)
  | n+1, a :: as, b :: bs =>
    if a = b then (if a = NULC then true else strncmpEq n as bs) else false

/-- Length of the common prefix of two lists (used for the loop
`for (; same < str.size() && same < k.size() && str[same] == k[same]; ++same);`
which starts at index 1: `same = 1 + matchLen str.tail k.tail`). -/
def matchLen : List Char → List Char → Nat
  | a :: as, b :: bs => if a = b then matchLen as bs + 1 else 0
  | _, _ => 0

mutual

/-- The body of `suffix_trie_t::set` acting on the children map:
find the slot for `str[0]`; if empty, add a leaf `(str, val)`,
otherwise handle the collision with the occupant (`setCollide`). -/
def setChildren {V : Type} : List (Char × Trie V) → Char → List Char → List V → List (Char × Trie V)
  | [], c0, str, val => [(c0, .node str val [])]
  | (a, u) :: rest, c0, str, val =>
    if a = c0 then (a, setCollide u str val) :: rest
    else (a, u) :: setChildren rest c0 str val

/-- `suffix_trie_t::set`, the part after `find_partial(str[0])` returned
the occupant `it` of the slot: overwrite on exact match, recurse when
`it->key` is a prefix of `str`, otherwise split at the longest common
leading substring (computed from index 1, as in the source). -/
def setCollide {V : Type} : Trie V → List Char → List V → Trie V
  | .node k kv kch, str, val =>
    if k.length ≤ str.length ∧ strncmpEq k.length str k then
      if str.length = k.length then .node k val kch
      else
        -- k is a prefix of str: it->set(str.substr(k.size()), val)
        let rest := str.drop k.length
        .node k kv (setChildren kch (rest.headD NULC) rest val)
    else
      -- split the slot at the largest common leading substring
      let same := 1 + matchLen str.tail k.tail
      let commonstr := str.take same
      let oldstr := k.drop same
      let moved : Trie V := .node oldstr kv kch   -- it->key = oldstr
      if same = str.length then
        -- str was a prefix of k: the replacement node carries val
        .node commonstr val [(oldstr.headD NULC, moved)]
      else
        -- different endings: new leaf for the rest of str, plus moved node
        let setstr := str.drop same
        .node commonstr []
          (updChild [(setstr.headD NULC, .node setstr val [])] (oldstr.headD NULC) moved)

end

/-- `suffix_trie_t::set(str, val)`: dispatch on the child slot `str[0]`. -/
def Trie.set {V : Type} (t : Trie V) (str : List Char) (val : List V) : Trie V :=
  match t with
  | .node k0 v0 ch => .node k0 v0 (setChildren ch (str.headD NULC) str val)

/-- `suffix_trie_t::find_partial(c)`: direct single-byte child lookup. -/
def Trie.find_partial {V : Type} (t : Trie V) (c : Char) : Option (Trie V) :=
  lookupChild t.children c

/-- `suffix_trie_t::find_exact(str)`: look up the child slot `str[0]`
and return the occupant iff its key equals `str` in full.  Note the
source performs no recursive walk. -/
def Trie.find_exact {V : Type} (t : Trie V) (s : List Char) : Option (Trie V) :=
  match lookupChild t.children (s.headD NULC) with
  | some u => if u.key = s then some u else none
  | none => none

/-- `suffix_trie_t::isTerminal()`: no children. -/
def Trie.isTerminal {V : Type} (t : Trie V) : Bool :=
  t.children.isEmpty

/-- The default-constructed trie (`lex::tokens` before registration). -/
def emptyT {V : Type} : Trie V := .node [] [] []

/-- Registration of a list of `(literal, value-list)` pairs by repeated
`set` calls, starting from the empty trie. -/
def build {V : Type} (ops : List (List Char × List V)) : Trie V :=
  ops.foldl (fun t p => t.set p.1 p.2) emptyT

mutual

/-- Well-formedness of a children map: every child is stored under
exactly the first byte of its (non-empty) key segment, no two siblings
share a slot byte, and the children are themselves well-formed. -/
def wfCh {V : Type} : List (Char × Trie V) → Bool
  | [] => true
  | (a, u) :: rest =>
    wfT a u && !(rest.map Prod.fst).contains a && wfCh rest

/-- Well-formedness of a child node stored under slot byte `a`. -/
def wfT {V : Type} : Char → Trie V → Bool
  | a, .node k _ kch => !k.isEmpty && decide (k.headD NULC = a) && wfCh kch

end

mutual

/-- Keys of a children map contain no NUL byte (true of every
registration the program performs; embedded NUL bytes make `strncmp`
stop early). -/
def cleanCh {V : Type} : List (Char × Trie V) → Bool
  | [] => true
  | (_, u) :: rest => cleanT u && cleanCh rest

/-- Keys of a trie node and its descendants contain no NUL byte. -/
def cleanT {V : Type} : Trie V → Bool
  | .node k _ kch => !(k.contains NULC) && cleanCh kch

end

/-- A string with no NUL byte. -/
def noNul (s : List Char) : Bool := !(s.contains NULC)

/-- Fuel-indexed full-path lookup over a children map: the node whose
key segments concatenate to `s` along the walk, as described by the
specification of exact lookup.  The fuel `s.length` always suffices
because every recursion step consumes a non-empty key segment. -/
def semChF {V : Type} : Nat → List (Char × Trie V) → List Char → Option (List V)
  | 0, _, _ => none
  | fuel+1, ch, s =>
    match s with
    | [] => none
    | c :: s' =>
      match lookupChild ch c with
      | none => none
      | some (.node m mv mch) =>
        if m = c :: s' then some mv
        else if !m.isEmpty && m.isPrefixOf (c :: s') then
          semChF fuel mch ((c :: s').drop m.length)
        else none

/-- Full-path lookup over a children map. -/
def semCh {V : Type} (ch : List (Char × Trie V)) (s : List Char) : Option (List V) :=
  semChF s.length ch s

/-- Full-path lookup on a trie: the value list of the node whose full
path string (concatenation of key segments from the root) equals `s`. -/
def semLookup {V : Type} (t : Trie V) (s : List Char) : Option (List V) :=
  semCh t.children s

/-- Registered content of a children map: full-path lookup, with nodes
holding the empty value list (pure branching points) filtered out. -/
def contentCh {V : Type} (ch : List (Char × Trie V)) (s : List Char) : Option (List V) :=
  match semCh ch s with
  | some v => if v.isEmpty then none else some v
  | none => none

/-- Trie content as a mapping from full path strings to registered
value lists: nodes holding the empty value list are pure branching
points and carry no registration. -/
def content {V : Type} (t : Trie V) (s : List Char) : Option (List V) :=
  contentCh t.children s

/-- The value list of the last registration pair for `s` in `ops`. -/
def lastVal {V : Type} : List (List Char × List V) → List Char → Option (List V)
  | [], _ => none
  | (k, v) :: rest, s =>
    match lastVal rest s with
    | some w => some w
    | none => if s = k then some v else none

/-! ## The tokenizer (`namespace lex`) -/

/-- `lex::token_type`. -/
inductive TokenType : Type where
  | END | USER | KEYWORD | SYMBOL
deriving DecidableEq

/-- `lex::token_t`. -/
structure Token : Type where
  type : TokenType
  value : List Char
deriving DecidableEq

/-- `lex::is_letter`. -/
def isLetterC (c : Char) : Bool := ('a' ≤ c && c ≤ 'z') || ('A' ≤ c && c ≤ 'Z')

/-- `lex::is_number`. -/
def isNumberC (c : Char) : Bool := '0' ≤ c && c ≤ '9'

/-- `lex::is_alphanumeric`. -/
def isAlnumC (c : Char) : Bool := isLetterC c || isNumberC c

/-- `std::isspace(c, std::locale("C"))`: the six C-locale whitespace bytes. -/
def isSpaceC (c : Char) : Bool :=
  c = ' ' || c = '\t' || c = '\n' || c = Char.ofNat 11 || c = Char.ofNat 12 || c = '\r'

/-- `lex::is_symbol`. -/
def isSymbolC (c : Char) : Bool := !(isLetterC c || isNumberC c || isSpaceC c)

/-- `lex::hit_word_boundry`. -/
def hitWordBoundry (c1 c2 : Char) : Bool :=
  if c1 = NULC then false
  else if isSpaceC c2 then true
  else if isAlnumC c1 != isAlnumC c2 then true
  else false

/-- Embedding of the `std::istream` state used by `next_token`: the
remaining characters and the good-bit (false once eofbit/failbit is set). -/
structure LStream : Type where
  data : List Char
  good : Bool
deriving DecidableEq

/-- The whitespace-skipping loop
`while (strm.good() && isspace((char)strm.peek(), loc)) strm.get();`
(peeking an exhausted stream sets eofbit, clearing `good`). -/
def skipWs : List Char → Bool → List Char × Bool
  | data, false => (data, false)
  | [], true => ([], false)
  | c :: rest, true => if isSpaceC c then skipWs rest true else (c :: rest, true)

/-- Emission of the token once the scanning loop declares a boundary:
a registered node with a non-empty value list yields its first category,
otherwise the accumulated text is a USER token. -/
def emitTok (it : Option (Trie TokenType)) (str : List Char) (s : LStream) : Token × LStream :=
  match it with
  | some (.node _ (v0 :: _) _) => (⟨v0, str⟩, s)
  | _ => (⟨.USER, str⟩, s)

/-- The accumulation loop of `lex::next_token`, entered after `c = strm.get()`:
`p` is the previous byte (`'\0'` sentinel at the start), `str` the text
accumulated so far, and the `Bool × List Char` the stream state.  A
boundary fires on `hit_word_boundry(p, c)`, or when `find_exact(str)` is
a node whose first value is SYMBOL and either it is terminal or the
lookahead `find_exact(str + peek)` misses; the non-appended byte `c` is
pushed back only while the stream is still good (the lookahead peek at
end of stream clears `good`, so the byte is dropped there). -/
def scanLoop (t : Trie TokenType) : Char → List Char → Bool → List Char → Token × LStream
  | _, _, false, data => (⟨.END, []⟩, ⟨data, false⟩)
  | _, _, true, [] => (⟨.END, []⟩, ⟨[], false⟩)
  | p, str, true, c :: rest =>
    let it := t.find_exact str
    if hitWordBoundry p c then emitTok it str ⟨c :: rest, true⟩
    else
      match it with
      | some (.node _ (.SYMBOL :: _) uch) =>
        if uch.isEmpty then emitTok it str ⟨c :: rest, true⟩
        else
          match rest with
          | [] =>
            -- strm.peek() returns EOF and sets eofbit
            if (t.find_exact (str ++ [EOFC])).isNone then emitTok it str ⟨[], false⟩
            else scanLoop t c (str ++ [c]) false rest
          | d :: _ =>
            if (t.find_exact (str ++ [d])).isNone then emitTok it str ⟨c :: rest, true⟩
            else scanLoop t c (str ++ [c]) true rest
      | _ => scanLoop t c (str ++ [c]) true rest

/-- `lex::next_token`. -/
def nextToken (t : Trie TokenType) (s : LStream) : Token × LStream :=
  let (d, g) := skipWs s.data s.good
  scanLoop t NULC [] g d

/-- `n` successive calls of `next_token` on a stream. -/
def nextTokens (t : Trie TokenType) : Nat → LStream → List Token
  | 0, _ => []
  | n+1, s =>
    let (tok, s') := nextToken t s
    tok :: nextTokens t n s'

/-! ## Basic lemmas about the children map -/

theorem lookupChild_setChildren_ne {V : Type} (ch : List (Char × Trie V)) (c0 : Char)
    (str : List Char) (val : List V) (c : Char) (hne : c ≠ c0) :
    lookupChild (setChildren ch c0 str val) c = lookupChild ch c := by
  induction ch with
  | nil =>
    simp only [setChildren, lookupChild, if_neg (show ¬c0 = c from fun h => hne h.symm)]
  | cons hd rest ih =>
    obtain ⟨a, u⟩ := hd
    by_cases hac : a = c0
    · subst hac
      simp only [setChildren, if_pos rfl, lookupChild,
        if_neg (show ¬a = c from fun h => hne h.symm)]
    · simp only [setChildren, if_neg hac]
      by_cases hax : a = c
      · simp [lookupChild, hax]
      · simp [lookupChild, hax, ih]

theorem lookupChild_setChildren_self {V : Type} (ch : List (Char × Trie V)) (c0 : Char)
    (str : List Char) (val : List V) :
    lookupChild (setChildren ch c0 str val) c0 =
      some (match lookupChild ch c0 with
            | none => .node str val []
            | some u => setCollide u str val) := by
  induction ch with
  | nil => simp [setChildren, lookupChild]
  | cons hd rest ih =>
    obtain ⟨a, u⟩ := hd
    by_cases hac : a = c0
    · subst hac
      simp [setChildren, lookupChild]
    · simp [setChildren, lookupChild, hac, ih]

theorem setChildren_map_fst {V : Type} (ch : List (Char × Trie V)) (c0 : Char)
    (str : List Char) (val : List V) :
    (setChildren ch c0 str val).map Prod.fst =
      if (ch.map Prod.fst).contains c0 then ch.map Prod.fst
      else ch.map Prod.fst ++ [c0] := by
  induction ch with
  | nil => simp [setChildren]
  | cons hd rest ih =>
    obtain ⟨a, u⟩ := hd
    by_cases hac : a = c0
    · subst hac
      simp [setChildren, List.contains_cons]
    · simp only [setChildren, if_neg hac, List.map_cons, ih, List.contains_cons]
      have h1 : (c0 == a) = false := beq_eq_false_iff_ne.mpr (fun h => hac h.symm)
      rw [h1]
      simp only [Bool.false_or]
      split <;> rfl

theorem updChild_pair {V : Type} (a c : Char) (u v : Trie V) (h : a ≠ c) :
    updChild [(a, u)] c v = [(a, u), (c, v)] := by
  simp [updChild, h]

/-! ## Lemmas about strncmp and the common-prefix length -/

theorem strncmpEq_of_take (k : List Char) :
    ∀ (str : List Char), k.length ≤ str.length → str.take k.length = k →
      strncmpEq k.length str k = true := by
  induction k with
  | nil => intro str _ _; simp [strncmpEq]
  | cons b bs ih =>
    intro str hlen htake
    cases str with
    | nil => simp at hlen
    | cons a as =>
      simp only [List.length_cons, List.take_succ_cons, List.cons.injEq] at htake
      obtain ⟨rfl, htail⟩ := htake
      have hlen' : bs.length ≤ as.length := by simpa using hlen
      have hrec := ih as hlen' htail
      simp only [List.length_cons, strncmpEq, if_pos rfl]
      by_cases hnul : a = NULC
      · simp [hnul]
      · rw [if_neg hnul]; exact hrec

theorem take_of_strncmpEq (k : List Char) :
    ∀ (str : List Char), noNul k = true → strncmpEq k.length str k = true →
      k.length ≤ str.length → str.take k.length = k := by
  induction k with
  | nil => intro str _ _ _; simp
  | cons b bs ih =>
    intro str hclean hcmp hlen
    cases str with
    | nil => simp at hlen
    | cons a as =>
      simp only [noNul, List.contains_cons, Bool.not_or, Bool.and_eq_true,
        Bool.not_eq_true'] at hclean
      obtain ⟨hb, hbs⟩ := hclean
      simp only [List.length_cons, strncmpEq] at hcmp
      by_cases hab : a = b
      · subst hab
        rw [if_pos rfl] at hcmp
        have hanul : ¬a = NULC := by
          intro h; rw [h] at hb; simp at hb
        rw [if_neg hanul] at hcmp
        have hlen' : bs.length ≤ as.length := by simpa using hlen
        have hrec := ih as (by simp only [noNul, hbs]; rfl) hcmp hlen'
        simp [hrec]
      · rw [if_neg hab] at hcmp
        exact absurd hcmp (by simp)

theorem matchLen_le_left : ∀ (a b : List Char), matchLen a b ≤ a.length := by
  intro a
  induction a with
  | nil => intro b; cases b <;> simp [matchLen]
  | cons x xs ih =>
    intro b
    cases b with
    | nil => simp [matchLen]
    | cons y ys =>
      simp only [matchLen]
      split
      · simpa using ih ys
      · simp

theorem matchLen_le_right : ∀ (a b : List Char), matchLen a b ≤ b.length := by
  intro a
  induction a with
  | nil => intro b; cases b <;> simp [matchLen]
  | cons x xs ih =>
    intro b
    cases b with
    | nil => simp [matchLen]
    | cons y ys =>
      simp only [matchLen]
      split
      · simpa using ih ys
      · simp

theorem matchLen_take : ∀ (a b : List Char), a.take (matchLen a b) = b.take (matchLen a b) := by
  intro a
  induction a with
  | nil => intro b; cases b <;> simp [matchLen]
  | cons x xs ih =>
    intro b
    cases b with
    | nil => simp [matchLen]
    | cons y ys =>
      simp only [matchLen]
      split
      · rename_i hxy
        subst hxy
        simp [ih ys]
      · simp

theorem matchLen_stop : ∀ (a b : List Char), matchLen a b < a.length → matchLen a b < b.length →
    a[matchLen a b]? ≠ b[matchLen a b]? := by
  intro a
  induction a with
  | nil => intro b h _; simp at h
  | cons x xs ih =>
    intro b ha hb
    cases b with
    | nil => simp at hb
    | cons y ys =>
      simp only [matchLen] at *
      by_cases hxy : x = y
      · subst hxy
        rw [if_pos rfl] at ha hb ⊢
        have := ih ys (by simpa using ha) (by simpa using hb)
        simpa using this
      · rw [if_neg hxy]
        simpa using hxy

/-! ## Interface lemmas for the full-path lookup -/

theorem semChF_nil_str {V : Type} (fuel : Nat) (ch : List (Char × Trie V)) :
    semChF fuel ch [] = none := by
  cases fuel <;> rfl

theorem semChF_mono {V : Type} (f1 : Nat) :
    ∀ (f2 : Nat) (ch : List (Char × Trie V)) (s : List Char),
      s.length ≤ f1 → s.length ≤ f2 → semChF f1 ch s = semChF f2 ch s := by
  induction f1 with
  | zero =>
    intro f2 ch s h1 _
    have hs : s = [] := List.eq_nil_of_length_eq_zero (Nat.le_zero.mp h1)
    subst hs
    rw [semChF_nil_str, semChF_nil_str]
  | succ n ih =>
    intro f2 ch s h1 h2
    cases s with
    | nil => rw [semChF_nil_str, semChF_nil_str]
    | cons c s' =>
      cases f2 with
      | zero => simp at h2
      | succ m =>
        cases hlk : lookupChild ch c with
        | none => simp only [semChF, hlk]
        | some u =>
          obtain ⟨mk, mv, mch⟩ := u
          simp only [semChF, hlk]
          by_cases hk : mk = c :: s'
          · simp [hk]
          · simp only [if_neg hk]
            by_cases hc : (!mk.isEmpty && mk.isPrefixOf (c :: s')) = true
            · rw [if_pos hc, if_pos hc]
              have hne : mk ≠ [] := by
                intro h
                rw [h] at hc
                simp at hc
              have hlen : ((c :: s').drop mk.length).length ≤ s'.length := by
                simp only [List.length_drop, List.length_cons]
                have : 1 ≤ mk.length := List.length_pos.mpr hne
                omega
              exact ih m mch _ (le_trans hlen (by simpa using h1))
                (le_trans hlen (by simpa using h2))
            · rw [if_neg hc, if_neg hc]

theorem semCh_nil {V : Type} (ch : List (Char × Trie V)) : semCh ch [] = none := rfl

theorem semCh_cons_none {V : Type} {ch : List (Char × Trie V)} {c : Char} {s' : List Char}
    (hlk : lookupChild ch c = none) : semCh ch (c :: s') = none := by
  simp only [semCh, List.length_cons, semChF, hlk]

theorem semCh_cons_key_eq {V : Type} {ch : List (Char × Trie V)} {c : Char} {s' : List Char}
    {u : Trie V} (hlk : lookupChild ch c = some u) (hk : u.key = c :: s') :
    semCh ch (c :: s') = some u.values := by
  obtain ⟨mk, mv, mch⟩ := u
  simp only [Trie.key] at hk
  simp only [semCh, List.length_cons, semChF, hlk, if_pos hk, Trie.values]

theorem semCh_cons_pfx {V : Type} {ch : List (Char × Trie V)} {c : Char} {s' : List Char}
    {u : Trie V} (hlk : lookupChild ch c = some u) (hk : u.key ≠ c :: s')
    (hne : u.key ≠ []) (hpfx : u.key <+: (c :: s')) :
    semCh ch (c :: s') = semCh u.children ((c :: s').drop u.key.length) := by
  obtain ⟨mk, mv, mch⟩ := u
  simp only [Trie.key, Trie.children] at *
  have hc : (!mk.isEmpty && mk.isPrefixOf (c :: s')) = true := by
    rw [Bool.and_eq_true]
    constructor
    · simpa using hne
    · exact List.isPrefixOf_iff_prefix.mpr hpfx
  simp only [semCh, List.length_cons, semChF, hlk, if_neg hk, hc, if_true]
  apply semChF_mono
  · have h1 : 1 ≤ mk.length := List.length_pos.mpr hne
    simp only [List.length_drop, List.length_cons]
    omega
  · exact le_refl _

theorem semCh_cons_miss {V : Type} {ch : List (Char × Trie V)} {c : Char} {s' : List Char}
    {u : Trie V} (hlk : lookupChild ch c = some u) (hk : u.key ≠ c :: s')
    (hmiss : u.key = [] ∨ ¬(u.key <+: (c :: s'))) : semCh ch (c :: s') = none := by
  obtain ⟨mk, mv, mch⟩ := u
  simp only [Trie.key] at *
  have hc : (!mk.isEmpty && mk.isPrefixOf (c :: s')) = false := by
    rcases hmiss with h | h
    · subst h; rfl
    · rw [Bool.and_eq_false_iff]
      right
      exact Bool.eq_false_iff.mpr (fun hh => h (List.isPrefixOf_iff_prefix.mp hh))
  simp only [semCh, List.length_cons, semChF, hlk, if_neg hk, hc]
  rfl

theorem contentCh_nilch {V : Type} (s : List Char) :
    contentCh ([] : List (Char × Trie V)) s = none := by
  cases s with
  | nil => rfl
  | cons c s' => simp [contentCh, semCh_cons_none (by rfl : lookupChild ([] : List (Char × Trie V)) c = none)]

theorem contentCh_nil {V : Type} (ch : List (Char × Trie V)) : contentCh ch [] = none := by
  simp [contentCh, semCh_nil]

theorem contentCh_cons_none {V : Type} {ch : List (Char × Trie V)} {c : Char} {s' : List Char}
    (hlk : lookupChild ch c = none) : contentCh ch (c :: s') = none := by
  simp [contentCh, semCh_cons_none hlk]

theorem contentCh_cons_key_eq {V : Type} {ch : List (Char × Trie V)} {c : Char} {s' : List Char}
    {u : Trie V} (hlk : lookupChild ch c = some u) (hk : u.key = c :: s') :
    contentCh ch (c :: s') = (if u.values.isEmpty then none else some u.values) := by
  simp [contentCh, semCh_cons_key_eq hlk hk]

theorem contentCh_cons_pfx {V : Type} {ch : List (Char × Trie V)} {c : Char} {s' : List Char}
    {u : Trie V} (hlk : lookupChild ch c = some u) (hk : u.key ≠ c :: s')
    (hne : u.key ≠ []) (hpfx : u.key <+: (c :: s')) :
    contentCh ch (c :: s') = contentCh u.children ((c :: s').drop u.key.length) := by
  simp [contentCh, semCh_cons_pfx hlk hk hne hpfx]

theorem contentCh_cons_miss {V : Type} {ch : List (Char × Trie V)} {c : Char} {s' : List Char}
    {u : Trie V} (hlk : lookupChild ch c = some u) (hk : u.key ≠ c :: s')
    (hmiss : u.key = [] ∨ ¬(u.key <+: (c :: s'))) : contentCh ch (c :: s') = none := by
  simp [contentCh, semCh_cons_miss hlk hk hmiss]

/-! ## Well-formedness lemmas -/

theorem wfT_node {V : Type} (a : Char) (k : List Char) (kv : List V)
    (kch : List (Char × Trie V)) :
    wfT a (.node k kv kch) = true ↔ (k ≠ [] ∧ k.headD NULC = a ∧ wfCh kch = true) := by
  simp [wfT, Bool.and_eq_true, and_assoc]

theorem wfCh_cons {V : Type} (a : Char) (u : Trie V) (rest : List (Char × Trie V)) :
    wfCh ((a, u) :: rest) = true ↔
      (wfT a u = true ∧ (rest.map Prod.fst).contains a = false ∧ wfCh rest = true) := by
  simp [wfCh, Bool.and_eq_true, and_assoc, Bool.not_eq_true']

theorem wfCh_lookup {V : Type} (ch : List (Char × Trie V)) (c : Char) (u : Trie V) :
    wfCh ch = true → lookupChild ch c = some u → wfT c u = true := by
  induction ch with
  | nil => intro _ h; simp [lookupChild] at h
  | cons hd rest ih =>
    obtain ⟨a, w⟩ := hd
    intro hwf hlk
    rw [wfCh_cons] at hwf
    obtain ⟨hw, _, hrest⟩ := hwf
    by_cases hac : a = c
    · subst hac
      have hwu : w = u := by
        simpa [lookupChild] using hlk
      exact hwu ▸ hw
    · simp only [lookupChild, if_neg hac] at hlk
      exact ih hrest hlk

theorem headD_drop (l : List Char) (n : Nat) (d : Char) :
    (l.drop n).headD d = l.getD n d := by
  simp [List.headD_eq_head?, List.getD, List.head?_drop]

theorem headD_eq_head_of_ne {l : List Char} (h : l ≠ []) (d : Char) :
    l.headD d = l.head h := by
  cases l with
  | nil => exact absurd rfl h
  | cons x xs => rfl

/-- Facts about the split case of `set`: writing `same` for
`1 + matchLen str1 k1`, the split point is a common prefix of the two
strings, lies strictly inside the colliding key, and (when strictly
inside `str`) the two strings differ at index `same`. -/
theorem split_facts (c0 : Char) (str1 k1 : List Char)
    (hcond : ¬((c0 :: k1).length ≤ (c0 :: str1).length ∧
               strncmpEq (c0 :: k1).length (c0 :: str1) (c0 :: k1) = true)) :
    1 + matchLen str1 k1 < (c0 :: k1).length ∧
    (c0 :: str1).take (1 + matchLen str1 k1) = (c0 :: k1).take (1 + matchLen str1 k1) ∧
    1 + matchLen str1 k1 ≤ (c0 :: str1).length ∧
    (1 + matchLen str1 k1 < (c0 :: str1).length →
      (c0 :: str1).getD (1 + matchLen str1 k1) NULC ≠
        (c0 :: k1).getD (1 + matchLen str1 k1) NULC) := by
  have hml : matchLen str1 k1 ≤ str1.length := matchLen_le_left _ _
  have hmr : matchLen str1 k1 ≤ k1.length := matchLen_le_right _ _
  have htk : str1.take (matchLen str1 k1) = k1.take (matchLen str1 k1) := matchLen_take _ _
  have hlt : 1 + matchLen str1 k1 < (c0 :: k1).length := by
    by_contra hge
    have hm : matchLen str1 k1 = k1.length := by
      simp only [List.length_cons, not_lt] at hge
      omega
    apply hcond
    have hlen : (c0 :: k1).length ≤ (c0 :: str1).length := by
      simp only [List.length_cons]
      omega
    have htake : (c0 :: str1).take (c0 :: k1).length = c0 :: k1 := by
      simp only [List.length_cons, List.take_succ_cons]
      rw [← hm, htk, hm, List.take_length]
    exact ⟨hlen, strncmpEq_of_take _ _ hlen htake⟩
  refine ⟨hlt, ?_, ?_, ?_⟩
  · simp only [List.take_succ_cons, Nat.add_comm 1 (matchLen str1 k1)]
    rw [htk]
  · simp only [List.length_cons]; omega
  · intro hlt_str heq
    have hm1 : matchLen str1 k1 < str1.length := by
      simp only [List.length_cons] at hlt_str; omega
    have hm2 : matchLen str1 k1 < k1.length := by
      simp only [List.length_cons] at hlt; omega
    apply matchLen_stop str1 k1 hm1 hm2
    have e1 : (c0 :: str1).getD (1 + matchLen str1 k1) NULC = str1.getD (matchLen str1 k1) NULC := by
      rw [Nat.add_comm]; rfl
    have e2 : (c0 :: k1).getD (1 + matchLen str1 k1) NULC = k1.getD (matchLen str1 k1) NULC := by
      rw [Nat.add_comm]; rfl
    rw [e1, e2] at heq
    rw [List.getElem?_eq_getElem hm1, List.getElem?_eq_getElem hm2]
    rw [List.getD_eq_getElem _ _ hm1, List.getD_eq_getElem _ _ hm2] at heq
    exact congrArg some heq

theorem contains_append_one (l : List Char) (x y : Char) :
    (l ++ [x]).contains y = (l.contains y || (y == x)) := by
  induction l with
  | nil => by_cases h : y = x <;> simp [List.contains_cons, h]
  | cons b bs ih =>
    by_cases h : y = x
    · simp [List.contains_cons, ih, Bool.or_assoc, h]
    · simp [List.contains_cons, ih, Bool.or_assoc, h, beq_eq_false_iff_ne.mpr h]

theorem set_preserves_wf {V : Type} (n : Nat) :
    ∀ (str : List Char), str.length ≤ n → str ≠ [] →
    ∀ (val : List V),
      (∀ (a : Char) (u : Trie V), wfT a u = true → str.headD NULC = a →
        wfT a (setCollide u str val) = true) ∧
      (∀ (ch : List (Char × Trie V)), wfCh ch = true →
        wfCh (setChildren ch (str.headD NULC) str val) = true) := by
  induction n using Nat.strong_induction_on with
  | _ n IH =>
  intro str hlen hne val
  obtain ⟨c0, str1, rfl⟩ : ∃ c s, str = c :: s := by
    cases str with
    | nil => exact absurd rfl hne
    | cons c s => exact ⟨c, s, rfl⟩
  have partA : ∀ (a : Char) (u : Trie V), wfT a u = true →
      (c0 :: str1).headD NULC = a → wfT a (setCollide u (c0 :: str1) val) = true := by
    intro a u hwf ha
    obtain ⟨k, kv, kch⟩ := u
    rw [wfT_node] at hwf
    obtain ⟨hk_ne, hk_hd, hk_wf⟩ := hwf
    have hac : c0 = a := ha
    subst hac
    obtain ⟨k1, rfl⟩ : ∃ k1, k = c0 :: k1 := by
      cases k with
      | nil => exact absurd rfl hk_ne
      | cons kh k1 =>
        have : kh = c0 := hk_hd
        exact ⟨k1, by rw [this]⟩
    by_cases hcond : (c0 :: k1).length ≤ (c0 :: str1).length ∧
        strncmpEq (c0 :: k1).length (c0 :: str1) (c0 :: k1) = true
    · simp only [setCollide, if_pos hcond]
      by_cases heq : (c0 :: str1).length = (c0 :: k1).length
      · rw [if_pos heq, wfT_node]
        exact ⟨by simp, rfl, hk_wf⟩
      · rw [if_neg heq, wfT_node]
        refine ⟨by simp, rfl, ?_⟩
        have hlt : (c0 :: k1).length < (c0 :: str1).length :=
          lt_of_le_of_ne hcond.1 (fun h => heq h.symm)
        have hrest_ne : (c0 :: str1).drop (c0 :: k1).length ≠ [] := by
          rw [← List.length_pos, List.length_drop]
          omega
        have hrest_len : ((c0 :: str1).drop (c0 :: k1).length).length < n := by
          rw [List.length_drop]
          simp only [List.length_cons] at hlen ⊢
          omega
        exact ((IH _ hrest_len) _ (le_refl _) hrest_ne val).2 kch hk_wf
    · obtain ⟨hsame_k, htake_eq, hsame_str, hdiff⟩ := split_facts c0 str1 k1 hcond
      have hcs_tl : (c0 :: str1).tail = str1 := rfl
      have hk_tl : (c0 :: k1).tail = k1 := rfl
      simp only [setCollide, if_neg hcond, hcs_tl, hk_tl]
      have hold_ne : (c0 :: k1).drop (1 + matchLen str1 k1) ≠ [] := by
        rw [← List.length_pos, List.length_drop]
        omega
      have hcommon_ne : (c0 :: str1).take (1 + matchLen str1 k1) ≠ [] := by
        simp [List.take_succ_cons, Nat.add_comm 1 (matchLen str1 k1)]
      have hcommon_hd : ((c0 :: str1).take (1 + matchLen str1 k1)).headD NULC = c0 := by
        rw [Nat.add_comm]; rfl
      by_cases hsame : 1 + matchLen str1 k1 = (c0 :: str1).length
      · rw [if_pos hsame, wfT_node]
        refine ⟨hcommon_ne, hcommon_hd, ?_⟩
        rw [wfCh_cons]
        refine ⟨?_, by simp, rfl⟩
        rw [wfT_node]
        exact ⟨hold_ne, rfl, hk_wf⟩
      · rw [if_neg hsame, wfT_node]
        have hset_ne : (c0 :: str1).drop (1 + matchLen str1 k1) ≠ [] := by
          rw [← List.length_pos, List.length_drop]
          have := lt_of_le_of_ne hsame_str hsame
          omega
        have hshoh : ((c0 :: str1).drop (1 + matchLen str1 k1)).headD NULC ≠
            ((c0 :: k1).drop (1 + matchLen str1 k1)).headD NULC := by
          rw [headD_drop, headD_drop]
          exact hdiff (lt_of_le_of_ne hsame_str hsame)
        refine ⟨hcommon_ne, hcommon_hd, ?_⟩
        rw [updChild_pair _ _ _ _ hshoh, wfCh_cons]
        refine ⟨?_, ?_, ?_⟩
        · rw [wfT_node]
          exact ⟨hset_ne, rfl, rfl⟩
        · have hbeq : ((((c0 :: str1).drop (1 + matchLen str1 k1)).headD NULC) ==
              (((c0 :: k1).drop (1 + matchLen str1 k1)).headD NULC)) = false :=
            beq_eq_false_iff_ne.mpr hshoh
          simpa using hbeq
        · rw [wfCh_cons]
          refine ⟨?_, by simp, rfl⟩
          rw [wfT_node]
          exact ⟨hold_ne, rfl, hk_wf⟩
  refine ⟨partA, ?_⟩
  intro ch hwf
  induction ch with
  | nil =>
    simp only [setChildren]
    rw [wfCh_cons, wfT_node]
    exact ⟨⟨hne, rfl, rfl⟩, by simp, rfl⟩
  | cons hd rest ihch =>
    obtain ⟨a, u⟩ := hd
    rw [wfCh_cons] at hwf
    obtain ⟨hu, hcont, hrest⟩ := hwf
    by_cases hac : a = (c0 :: str1).headD NULC
    · simp only [setChildren, if_pos hac]
      rw [wfCh_cons]
      exact ⟨partA a u hu hac.symm, hcont, hrest⟩
    · simp only [setChildren, if_neg hac]
      rw [wfCh_cons]
      refine ⟨hu, ?_, ihch hrest⟩
      rw [setChildren_map_fst]
      split
      · exact hcont
      · rw [contains_append_one, hcont]
        simp only [Bool.false_or]
        exact beq_eq_false_iff_ne.mpr (fun h => hac h)

/-! ## Cleanliness lemmas -/

theorem noNul_iff (s : List Char) : noNul s = true ↔ NULC ∉ s := by
  simp [noNul]

theorem cleanT_node {V : Type} (k : List Char) (kv : List V) (kch : List (Char × Trie V)) :
    cleanT (.node k kv kch : Trie V) = true ↔ (noNul k = true ∧ cleanCh kch = true) := by
  simp [cleanT, noNul, Bool.and_eq_true]

theorem cleanCh_cons {V : Type} (a : Char) (u : Trie V) (rest : List (Char × Trie V)) :
    cleanCh ((a, u) :: rest) = true ↔ (cleanT u = true ∧ cleanCh rest = true) := by
  simp [cleanCh, Bool.and_eq_true]

theorem cleanCh_lookup {V : Type} (ch : List (Char × Trie V)) (c : Char) (u : Trie V) :
    cleanCh ch = true → lookupChild ch c = some u → cleanT u = true := by
  induction ch with
  | nil => intro _ h; simp [lookupChild] at h
  | cons hd rest ih =>
    obtain ⟨a, w⟩ := hd
    intro hcl hlk
    rw [cleanCh_cons] at hcl
    by_cases hac : a = c
    · subst hac
      have hwu : w = u := by simpa [lookupChild] using hlk
      exact hwu ▸ hcl.1
    · simp only [lookupChild, if_neg hac] at hlk
      exact ih hcl.2 hlk

theorem noNul_take (s : List Char) (i : Nat) (h : noNul s = true) : noNul (s.take i) = true := by
  rw [noNul_iff] at h ⊢
  exact fun hm => h (List.mem_of_mem_take hm)

theorem noNul_drop (s : List Char) (i : Nat) (h : noNul s = true) : noNul (s.drop i) = true := by
  rw [noNul_iff] at h ⊢
  exact fun hm => h (List.mem_of_mem_drop hm)

theorem cleanCh_updChild {V : Type} (l : List (Char × Trie V)) (c : Char) (v : Trie V)
    (hl : cleanCh l = true) (hv : cleanT v = true) : cleanCh (updChild l c v) = true := by
  induction l with
  | nil =>
    simp only [updChild]
    rw [cleanCh_cons]
    exact ⟨hv, rfl⟩
  | cons hd rest ih =>
    obtain ⟨a, w⟩ := hd
    rw [cleanCh_cons] at hl
    by_cases hac : a = c
    · simp only [updChild, if_pos hac]
      rw [cleanCh_cons]
      exact ⟨hv, hl.2⟩
    · simp only [updChild, if_neg hac]
      rw [cleanCh_cons]
      exact ⟨hl.1, ih hl.2⟩

theorem set_preserves_clean {V : Type} (n : Nat) :
    ∀ (str : List Char), str.length ≤ n → str ≠ [] → noNul str = true →
    ∀ (val : List V),
      (∀ (a : Char) (u : Trie V), wfT a u = true → str.headD NULC = a → cleanT u = true →
        cleanT (setCollide u str val) = true) ∧
      (∀ (ch : List (Char × Trie V)), wfCh ch = true → cleanCh ch = true →
        cleanCh (setChildren ch (str.headD NULC) str val) = true) := by
  induction n using Nat.strong_induction_on with
  | _ n IH =>
  intro str hlen hne hnul val
  obtain ⟨c0, str1, rfl⟩ : ∃ c s, str = c :: s := by
    cases str with
    | nil => exact absurd rfl hne
    | cons c s => exact ⟨c, s, rfl⟩
  have partA : ∀ (a : Char) (u : Trie V), wfT a u = true →
      (c0 :: str1).headD NULC = a → cleanT u = true →
      cleanT (setCollide u (c0 :: str1) val) = true := by
    intro a u hwf ha hcl
    obtain ⟨k, kv, kch⟩ := u
    rw [wfT_node] at hwf
    obtain ⟨hk_ne, hk_hd, hk_wf⟩ := hwf
    rw [cleanT_node] at hcl
    obtain ⟨hk_nul, hk_cl⟩ := hcl
    by_cases hcond : k.length ≤ (c0 :: str1).length ∧
        strncmpEq k.length (c0 :: str1) k = true
    · simp only [setCollide, if_pos hcond]
      by_cases heq : (c0 :: str1).length = k.length
      · rw [if_pos heq, cleanT_node]
        exact ⟨hk_nul, hk_cl⟩
      · rw [if_neg heq, cleanT_node]
        refine ⟨hk_nul, ?_⟩
        have hlt : k.length < (c0 :: str1).length :=
          lt_of_le_of_ne hcond.1 (fun h => heq h.symm)
        have hklen_pos : 0 < k.length := List.length_pos.mpr hk_ne
        have hrest_ne : (c0 :: str1).drop k.length ≠ [] := by
          rw [← List.length_pos, List.length_drop]
          omega
        have hrest_len : ((c0 :: str1).drop k.length).length < n := by
          rw [List.length_drop]
          simp only [List.length_cons] at hlen ⊢
          omega
        exact ((IH _ hrest_len) _ (le_refl _) hrest_ne
          (noNul_drop _ _ hnul) val).2 kch hk_wf hk_cl
    · simp only [setCollide, if_neg hcond]
      have hcommon_nul : noNul ((c0 :: str1).take (1 + matchLen (c0 :: str1).tail k.tail)) = true :=
        noNul_take _ _ hnul
      have hold_nul : noNul (k.drop (1 + matchLen (c0 :: str1).tail k.tail)) = true :=
        noNul_drop _ _ hk_nul
      by_cases hsame : 1 + matchLen (c0 :: str1).tail k.tail = (c0 :: str1).length
      · rw [if_pos hsame, cleanT_node]
        refine ⟨hcommon_nul, ?_⟩
        rw [cleanCh_cons]
        exact ⟨by rw [cleanT_node]; exact ⟨hold_nul, hk_cl⟩, rfl⟩
      · rw [if_neg hsame, cleanT_node]
        refine ⟨hcommon_nul, ?_⟩
        apply cleanCh_updChild
        · rw [cleanCh_cons]
          refine ⟨?_, rfl⟩
          rw [cleanT_node]
          exact ⟨noNul_drop _ _ hnul, rfl⟩
        · rw [cleanT_node]
          exact ⟨hold_nul, hk_cl⟩
  refine ⟨partA, ?_⟩
  intro ch hwf hcl
  induction ch with
  | nil =>
    simp only [setChildren]
    rw [cleanCh_cons, cleanT_node]
    exact ⟨⟨hnul, rfl⟩, rfl⟩
  | cons hd rest ihch =>
    obtain ⟨a, u⟩ := hd
    rw [wfCh_cons] at hwf
    rw [cleanCh_cons] at hcl
    by_cases hac : a = (c0 :: str1).headD NULC
    · simp only [setChildren, if_pos hac]
      rw [cleanCh_cons]
      exact ⟨partA a u hwf.1 hac.symm hcl.1, hcl.2⟩
    · simp only [setChildren, if_neg hac]
      rw [cleanCh_cons]
      exact ⟨hcl.1, ihch hwf.2.2 hcl.2⟩

/-! ## Prefix helper lemmas -/

theorem prefix_take {l : List Char} (i : Nat) : l.take i <+: l :=
  List.take_prefix i l

theorem eq_iff_drop_eq {m s str : List Char} (hms : m <+: s) (hmstr : m <+: str) :
    s = str ↔ s.drop m.length = str.drop m.length := by
  constructor
  · intro h; rw [h]
  · intro h
    obtain ⟨ts, rfl⟩ := hms
    obtain ⟨tt, rfl⟩ := hmstr
    rw [List.drop_left, List.drop_left] at h
    rw [h]

theorem not_prefix_of_getD_ne {m s : List Char} (i : Nat) (hi : i < m.length)
    (his : i < s.length) (hne : m.getD i NULC ≠ s.getD i NULC) :
    ¬(m <+: s) ∧ m ≠ s := by
  constructor
  · intro hp
    apply hne
    rw [List.getD_eq_getElem _ _ hi, List.getD_eq_getElem _ _ his]
    exact hp.getElem hi
  · intro h
    subst h
    exact hne rfl

theorem prefix_of_append_drop {m s : List Char} (h : m <+: s) :
    m ++ s.drop m.length = s := by
  obtain ⟨t, rfl⟩ := h
  rw [List.drop_left]

theorem lookupChild_setChildren_self_none {V : Type} {ch : List (Char × Trie V)} {c0 : Char}
    (str : List Char) (val : List V) (hold : lookupChild ch c0 = none) :
    lookupChild (setChildren ch c0 str val) c0 = some (.node str val []) := by
  rw [lookupChild_setChildren_self, hold]

theorem lookupChild_setChildren_self_some {V : Type} {ch : List (Char × Trie V)} {c0 : Char}
    {u : Trie V} (str : List Char) (val : List V) (hold : lookupChild ch c0 = some u) :
    lookupChild (setChildren ch c0 str val) c0 = some (setCollide u str val) := by
  rw [lookupChild_setChildren_self, hold]

theorem contentCh_cons_congr {V : Type} {ch ch' : List (Char × Trie V)} {c : Char}
    {s' : List Char} (h : lookupChild ch c = lookupChild ch' c) :
    contentCh ch (c :: s') = contentCh ch' (c :: s') := by
  cases hlk : lookupChild ch' c with
  | none => rw [contentCh_cons_none (h.trans hlk), contentCh_cons_none hlk]
  | some u =>
    have hlk2 : lookupChild ch c = some u := h.trans hlk
    by_cases hk : u.key = c :: s'
    · rw [contentCh_cons_key_eq hlk2 hk, contentCh_cons_key_eq hlk hk]
    · by_cases hcond : u.key ≠ [] ∧ u.key <+: (c :: s')
      · rw [contentCh_cons_pfx hlk2 hk hcond.1 hcond.2,
          contentCh_cons_pfx hlk hk hcond.1 hcond.2]
      · have hmiss : u.key = [] ∨ ¬(u.key <+: (c :: s')) := by
          by_cases hke : u.key = []
          · exact Or.inl hke
          · exact Or.inr (fun hp => hcond ⟨hke, hp⟩)
        rw [contentCh_cons_miss hlk2 hk hmiss, contentCh_cons_miss hlk hk hmiss]

theorem contentCh_miss_of_getD_ne {V : Type} {ch : List (Char × Trie V)} {c : Char}
    {s' : List Char} {u : Trie V} (hold : lookupChild ch c = some u) (i : Nat)
    (hiu : i < u.key.length) (his : i < (c :: s').length)
    (hne : u.key.getD i NULC ≠ (c :: s').getD i NULC) :
    contentCh ch (c :: s') = none := by
  obtain ⟨hnp, hne'⟩ := not_prefix_of_getD_ne i hiu his hne
  exact contentCh_cons_miss hold hne' (Or.inr hnp)

theorem drop_ne_nil_of_proper_prefix {a s : List Char} (h : a <+: s) (hne : a ≠ s) :
    s.drop a.length ≠ [] := by
  have hle := h.length_le
  have hlt : a.length < s.length :=
    lt_of_le_of_ne hle (fun he => hne (h.eq_of_length he))
  rw [← List.length_pos, List.length_drop]
  omega

theorem getD_append_full (common ds : List Char) :
    (common ++ ds).getD common.length NULC = ds.headD NULC := by
  rw [← headD_drop, List.drop_left]

/-- Shared step of the characterisation: once the walk has entered the
re-keyed copy `moved = node oldstr kv kch` of an old child (whose key in
the original map was `common ++ oldstr`), the remaining walk agrees with
the walk through the original child. -/
theorem walk_into_moved {V : Type} {CH : List (Char × Trie V)} {dh : Char} {ds' : List Char}
    {oldstr : List Char} {kv : List V} {kch : List (Char × Trie V)}
    (hlkm : lookupChild CH dh = some (.node oldstr kv kch))
    {ch : List (Char × Trie V)} {c0 : Char} {s2 k1 : List Char}
    (hold : lookupChild ch c0 = some (.node (c0 :: k1) kv kch))
    (common : List Char)
    (hold_ne : oldstr ≠ [])
    (hkdec : common ++ oldstr = c0 :: k1)
    (hsdec : common ++ (dh :: ds') = c0 :: s2) :
    contentCh CH (dh :: ds') = contentCh ch (c0 :: s2) := by
  by_cases hds_old : oldstr = dh :: ds'
  · have hks : (c0 :: k1) = (c0 :: s2) := by rw [← hkdec, hds_old, hsdec]
    rw [contentCh_cons_key_eq hlkm (by simpa [Trie.key] using hds_old),
      contentCh_cons_key_eq hold (by simpa [Trie.key] using hks)]
    simp [Trie.values]
  · by_cases hpfx : oldstr <+: (dh :: ds')
    · have hkps : (c0 :: k1) <+: (c0 :: s2) := by
        rw [← hkdec, ← hsdec]
        exact (List.prefix_append_right_inj common).mpr hpfx
      have hkns : (c0 :: k1) ≠ (c0 :: s2) := by
        rw [← hkdec, ← hsdec]
        intro h
        exact hds_old (List.append_cancel_left h)
      rw [contentCh_cons_pfx hlkm (by simpa [Trie.key] using hds_old)
        (by simpa [Trie.key] using hold_ne) (by simpa [Trie.key] using hpfx)]
      rw [contentCh_cons_pfx hold (by simpa [Trie.key] using hkns)
        (by simp [Trie.key]) (by simpa [Trie.key] using hkps)]
      have hdrop : (c0 :: s2).drop (c0 :: k1).length = (dh :: ds').drop oldstr.length := by
        rw [← hsdec, ← hkdec, List.length_append, List.drop_append]
      simp only [Trie.children, Trie.key]
      rw [hdrop]
    · have hknp : ¬((c0 :: k1) <+: (c0 :: s2)) := by
        rw [← hkdec, ← hsdec]
        intro h
        exact hpfx ((List.prefix_append_right_inj common).mp h)
      have hkne : (c0 :: k1) ≠ (c0 :: s2) := by
        rw [← hkdec, ← hsdec]
        intro h
        exact hds_old (List.append_cancel_left h)
      rw [contentCh_cons_miss hlkm (by simpa [Trie.key] using hds_old)
        (Or.inr (by simpa [Trie.key] using hpfx))]
      rw [contentCh_cons_miss hold (by simpa [Trie.key] using hkne)
        (Or.inr (by simpa [Trie.key] using hknp))]

/-- Characterisation of `set` on registered content: on a well-formed,
NUL-free children map, inserting a non-empty key `str` with a non-empty
value list updates the content exactly at `str` and nowhere else. -/
theorem contentCh_set {V : Type} (n : Nat) :
    ∀ (str : List Char), str.length ≤ n → str ≠ [] →
    ∀ (val : List V), val ≠ [] →
    ∀ (ch : List (Char × Trie V)), wfCh ch = true → cleanCh ch = true →
    ∀ (s : List Char),
      contentCh (setChildren ch (str.headD NULC) str val) s =
        if s = str then some val else contentCh ch s := by
  induction n using Nat.strong_induction_on with
  | _ n IH =>
  intro str hlen hne val hval ch hwf hcl s
  obtain ⟨c0, str1, rfl⟩ : ∃ c s0, str = c :: s0 := by
    cases str with
    | nil => exact absurd rfl hne
    | cons c s0 => exact ⟨c, s0, rfl⟩
  have hval' : val.isEmpty = false := by
    cases val with
    | nil => exact absurd rfl hval
    | cons v vs => rfl
  cases s with
  | nil =>
    rw [contentCh_nil, if_neg (by simp : ¬([] : List Char) = c0 :: str1), contentCh_nil]
  | cons c s2 =>
  by_cases hc : c0 = c
  case neg =>
    have hlk := lookupChild_setChildren_ne ch ((c0 :: str1).headD NULC) (c0 :: str1) val c
      (fun h => hc h.symm)
    rw [contentCh_cons_congr hlk, if_neg (by intro h; injection h with h1 _; exact hc h1.symm)]
  case pos =>
  subst hc
  simp only [List.headD_cons]
  cases hold : lookupChild ch c0 with
  | none =>
    have hself := lookupChild_setChildren_self_none (c0 :: str1) val hold
    by_cases hs : c0 :: s2 = c0 :: str1
    · rw [if_pos hs, contentCh_cons_key_eq hself (by simpa [Trie.key] using hs.symm)]
      simp [Trie.values, hval']
    · rw [if_neg hs, contentCh_cons_none hold]
      by_cases hpfx : (c0 :: str1) <+: (c0 :: s2)
      · rw [contentCh_cons_pfx hself
          (by simp only [Trie.key]; exact fun h => hs h.symm)
          (by simp [Trie.key]) (by simpa [Trie.key] using hpfx)]
        exact contentCh_nilch _
      · rw [contentCh_cons_miss hself
          (by simp only [Trie.key]; exact fun h => hs h.symm)
          (Or.inr (by simpa [Trie.key] using hpfx))]
  | some u =>
    have hself := lookupChild_setChildren_self_some (c0 :: str1) val hold
    obtain ⟨k, kv, kch⟩ := u
    have hwfu := wfCh_lookup ch c0 _ hwf hold
    rw [wfT_node] at hwfu
    obtain ⟨hk_ne, hk_hd, hk_wf⟩ := hwfu
    have hclu := cleanCh_lookup ch c0 _ hcl hold
    rw [cleanT_node] at hclu
    obtain ⟨hk_nul, hk_cl⟩ := hclu
    obtain ⟨k1, rfl⟩ : ∃ k1, k = c0 :: k1 := by
      cases k with
      | nil => exact absurd rfl hk_ne
      | cons kh k1 =>
        have hkh : kh = c0 := hk_hd
        exact ⟨k1, by rw [hkh]⟩
    by_cases hcond : (c0 :: k1).length ≤ (c0 :: str1).length ∧
        strncmpEq (c0 :: k1).length (c0 :: str1) (c0 :: k1) = true
    · have hpfx_k_str : (c0 :: k1) <+: (c0 :: str1) := by
        rw [List.prefix_iff_eq_take]
        exact (take_of_strncmpEq _ _ hk_nul hcond.2 hcond.1).symm
      by_cases heq : (c0 :: str1).length = (c0 :: k1).length
      · -- exact overwrite: k = str
        have hk_eq_str : (c0 :: k1) = (c0 :: str1) :=
          hpfx_k_str.eq_of_length heq.symm
        simp only [setCollide, if_pos hcond, if_pos heq] at hself
        by_cases hs : c0 :: s2 = c0 :: str1
        · rw [if_pos hs,
            contentCh_cons_key_eq hself (by simp only [Trie.key]; exact hk_eq_str.trans hs.symm)]
          simp [Trie.values, hval']
        · rw [if_neg hs]
          have hkey_ne_s : (c0 :: k1) ≠ (c0 :: s2) := by
            rw [hk_eq_str]; exact fun h => hs h.symm
          by_cases hpfx2 : (c0 :: k1) <+: (c0 :: s2)
          · rw [contentCh_cons_pfx hself (by simpa [Trie.key] using hkey_ne_s)
              (by simp [Trie.key]) (by simpa [Trie.key] using hpfx2)]
            rw [contentCh_cons_pfx hold (by simpa [Trie.key] using hkey_ne_s)
              (by simp [Trie.key]) (by simpa [Trie.key] using hpfx2)]
            simp only [Trie.children, Trie.key]
          · rw [contentCh_cons_miss hself (by simpa [Trie.key] using hkey_ne_s)
              (Or.inr (by simpa [Trie.key] using hpfx2))]
            rw [contentCh_cons_miss hold (by simpa [Trie.key] using hkey_ne_s)
              (Or.inr (by simpa [Trie.key] using hpfx2))]
      · -- k is a proper prefix of str: recursive insertion
        have hlt : (c0 :: k1).length < (c0 :: str1).length :=
          lt_of_le_of_ne hcond.1 (fun h => heq h.symm)
        simp only [setCollide, if_pos hcond, if_neg heq] at hself
        have hrest_ne : (c0 :: str1).drop (c0 :: k1).length ≠ [] := by
          rw [← List.length_pos, List.length_drop]
          omega
        have hrest_len : ((c0 :: str1).drop (c0 :: k1).length).length < n := by
          rw [List.length_drop]
          simp only [List.length_cons] at hlen ⊢
          omega
        have hIH := (IH _ hrest_len) _ (le_refl _) hrest_ne val hval kch hk_wf hk_cl
        by_cases hs_eq_k : c0 :: s2 = c0 :: k1
        · have hs_ne_str : ¬(c0 :: s2 = c0 :: str1) := by
            intro h
            rw [hs_eq_k] at h
            have := congrArg List.length h
            omega
          rw [if_neg hs_ne_str,
            contentCh_cons_key_eq hself (by simp only [Trie.key]; exact hs_eq_k.symm),
            contentCh_cons_key_eq hold (by simp only [Trie.key]; exact hs_eq_k.symm)]
          simp only [Trie.values]
        · by_cases hpfx_k_s : (c0 :: k1) <+: (c0 :: s2)
          · rw [contentCh_cons_pfx hself
              (by simp only [Trie.key]; exact fun h => hs_eq_k h.symm)
              (by simp [Trie.key]) (by simpa [Trie.key] using hpfx_k_s)]
            rw [contentCh_cons_pfx hold
              (by simp only [Trie.key]; exact fun h => hs_eq_k h.symm)
              (by simp [Trie.key]) (by simpa [Trie.key] using hpfx_k_s)]
            simp only [Trie.children, Trie.key]
            rw [hIH _]
            have hiff : (c0 :: s2 = c0 :: str1) ↔
                ((c0 :: s2).drop (c0 :: k1).length = (c0 :: str1).drop (c0 :: k1).length) :=
              eq_iff_drop_eq hpfx_k_s hpfx_k_str
            by_cases hds : (c0 :: s2).drop (c0 :: k1).length =
                (c0 :: str1).drop (c0 :: k1).length
            · rw [if_pos hds, if_pos (hiff.mpr hds)]
            · rw [if_neg hds, if_neg (fun h => hds (hiff.mp h))]
          · rw [contentCh_cons_miss hself
              (by simp only [Trie.key]; exact fun h => hs_eq_k h.symm)
              (Or.inr (by simpa [Trie.key] using hpfx_k_s))]
            rw [contentCh_cons_miss hold
              (by simp only [Trie.key]; exact fun h => hs_eq_k h.symm)
              (Or.inr (by simpa [Trie.key] using hpfx_k_s))]
            rw [if_neg (show ¬(c0 :: s2 = c0 :: str1) from
              fun h => hpfx_k_s (by rw [h]; exact hpfx_k_str))]
    · -- split case
      obtain ⟨hsame_k, htake_eq, hsame_str, hdiff⟩ := split_facts c0 str1 k1 hcond
      simp only [setCollide, if_neg hcond, List.tail_cons] at hself
      have hos_ne : (c0 :: k1).drop (1 + matchLen str1 k1) ≠ [] := by
        rw [← List.length_pos, List.length_drop]
        simp only [List.length_cons] at hsame_k ⊢
        omega
      have hkdec : (c0 :: str1).take (1 + matchLen str1 k1) ++
          (c0 :: k1).drop (1 + matchLen str1 k1) = c0 :: k1 := by
        rw [htake_eq]
        exact List.take_append_drop _ _
      have hCM_pfx_str : (c0 :: str1).take (1 + matchLen str1 k1) <+: (c0 :: str1) :=
        List.take_prefix _ _
      have hCM_pfx_k : (c0 :: str1).take (1 + matchLen str1 k1) <+: (c0 :: k1) := by
        rw [htake_eq]
        exact List.take_prefix _ _
      have hCM_len : ((c0 :: str1).take (1 + matchLen str1 k1)).length =
          1 + matchLen str1 k1 := by
        rw [List.length_take, min_eq_left hsame_str]
      have hCM_ne_nil : (c0 :: str1).take (1 + matchLen str1 k1) ≠ [] := by
        rw [Nat.add_comm 1 (matchLen str1 k1), List.take_succ_cons]
        exact List.cons_ne_nil _ _
      have hCM_ne_k : (c0 :: str1).take (1 + matchLen str1 k1) ≠ c0 :: k1 := by
        intro h
        have := congrArg List.length h
        rw [hCM_len] at this
        simp only [List.length_cons] at this hsame_k
        omega
      have hknp_CM : ¬((c0 :: k1) <+: (c0 :: str1).take (1 + matchLen str1 k1)) := by
        intro h
        have := h.length_le
        rw [hCM_len] at this
        simp only [List.length_cons] at this hsame_k
        omega
      have hgk : (c0 :: k1).getD (1 + matchLen str1 k1) NULC =
          ((c0 :: k1).drop (1 + matchLen str1 k1)).headD NULC := (headD_drop _ _ _).symm
      by_cases hsame : 1 + matchLen str1 k1 = (c0 :: str1).length
      · -- str itself is the common prefix: the replacement carries val
        rw [if_pos hsame] at hself
        have hCM_eq_str : (c0 :: str1).take (1 + matchLen str1 k1) = c0 :: str1 := by
          rw [hsame, List.take_length]
        by_cases hs : c0 :: s2 = c0 :: str1
        · rw [if_pos hs, contentCh_cons_key_eq hself
            (by simp only [Trie.key]; exact hCM_eq_str.trans hs.symm)]
          simp [Trie.values, hval']
        · rw [if_neg hs]
          by_cases hpfx_s : (c0 :: str1).take (1 + matchLen str1 k1) <+: (c0 :: s2)
          · have hCM_ne_s : (c0 :: str1).take (1 + matchLen str1 k1) ≠ c0 :: s2 := by
              rw [hCM_eq_str]; exact fun h => hs h.symm
            have hds_ne := drop_ne_nil_of_proper_prefix hpfx_s hCM_ne_s
            obtain ⟨dh, ds', hds⟩ : ∃ dh ds',
                (c0 :: s2).drop ((c0 :: str1).take (1 + matchLen str1 k1)).length =
                  dh :: ds' := by
              cases hE : (c0 :: s2).drop ((c0 :: str1).take (1 + matchLen str1 k1)).length with
              | nil => exact absurd hE hds_ne
              | cons dh ds' => exact ⟨dh, ds', rfl⟩
            have hsdec : (c0 :: str1).take (1 + matchLen str1 k1) ++ (dh :: ds') =
                c0 :: s2 := by
              rw [← hds]
              exact prefix_of_append_drop hpfx_s
            rw [contentCh_cons_pfx hself (by simpa [Trie.key] using hCM_ne_s)
              (by simpa [Trie.key] using hCM_ne_nil) (by simpa [Trie.key] using hpfx_s)]
            simp only [Trie.children, Trie.key]
            rw [hds]
            by_cases hodh : ((c0 :: k1).drop (1 + matchLen str1 k1)).headD NULC = dh
            · have hlkm : lookupChild
                  [(((c0 :: k1).drop (1 + matchLen str1 k1)).headD NULC,
                    Trie.node ((c0 :: k1).drop (1 + matchLen str1 k1)) kv kch)] dh =
                  some (Trie.node ((c0 :: k1).drop (1 + matchLen str1 k1)) kv kch) := by
                simp only [lookupChild]
                rw [if_pos hodh]
              exact walk_into_moved hlkm hold _ hos_ne hkdec hsdec
            · have hlkm : lookupChild
                  [(((c0 :: k1).drop (1 + matchLen str1 k1)).headD NULC,
                    Trie.node ((c0 :: k1).drop (1 + matchLen str1 k1)) kv kch)] dh =
                  none := by
                simp only [lookupChild]
                rw [if_neg hodh]
              rw [contentCh_cons_none hlkm]
              have hds1 : (c0 :: s2).drop (1 + matchLen str1 k1) = dh :: ds' := by
                rw [← hCM_len]
                exact hds
              have hsm_lt_s : 1 + matchLen str1 k1 < (c0 :: s2).length := by
                have hl := congrArg List.length hsdec
                rw [List.length_append, hCM_len] at hl
                simp only [List.length_cons] at hl ⊢
                omega
              have hgs : (c0 :: s2).getD (1 + matchLen str1 k1) NULC = dh := by
                rw [← headD_drop, hds1, List.headD_cons]
              symm
              apply contentCh_miss_of_getD_ne hold (1 + matchLen str1 k1)
              · simpa [Trie.key] using hsame_k
              · exact hsm_lt_s
              · simp only [Trie.key]
                rw [hgk, hgs]
                exact hodh
          · have hCM_ne_s : (c0 :: str1).take (1 + matchLen str1 k1) ≠ c0 :: s2 := by
              rw [hCM_eq_str]; exact fun h => hs h.symm
            rw [contentCh_cons_miss hself (by simpa [Trie.key] using hCM_ne_s)
              (Or.inr (by simpa [Trie.key] using hpfx_s))]
            rw [contentCh_cons_miss hold
              (by simp only [Trie.key]; exact fun h => hpfx_s (h ▸ hCM_pfx_k))
              (Or.inr (by simp only [Trie.key]; exact fun h => hpfx_s (hCM_pfx_k.trans h)))]
      · -- genuine split: branch node with empty values plus two leaves
        rw [if_neg hsame] at hself
        have hsm_lt_str : 1 + matchLen str1 k1 < (c0 :: str1).length :=
          lt_of_le_of_ne hsame_str hsame
        have hss_ne : (c0 :: str1).drop (1 + matchLen str1 k1) ≠ [] := by
          rw [← List.length_pos, List.length_drop]
          omega
        have hstr_dec : (c0 :: str1).take (1 + matchLen str1 k1) ++
            (c0 :: str1).drop (1 + matchLen str1 k1) = c0 :: str1 :=
          List.take_append_drop _ _
        have hshoh : ((c0 :: str1).drop (1 + matchLen str1 k1)).headD NULC ≠
            ((c0 :: k1).drop (1 + matchLen str1 k1)).headD NULC := by
          rw [headD_drop, headD_drop]
          exact hdiff hsm_lt_str
        rw [updChild_pair _ _ _ _ hshoh] at hself
        have hCM_ne_str : (c0 :: str1).take (1 + matchLen str1 k1) ≠ c0 :: str1 := by
          intro h
          have := congrArg List.length h
          rw [hCM_len] at this
          simp only [List.length_cons] at this hsm_lt_str
          omega
        by_cases hsCM : c0 :: s2 = (c0 :: str1).take (1 + matchLen str1 k1)
        · rw [if_neg (show ¬(c0 :: s2 = c0 :: str1) from by
            rw [hsCM]; exact hCM_ne_str)]
          rw [contentCh_cons_key_eq hself (by simp only [Trie.key]; exact hsCM.symm)]
          rw [contentCh_cons_miss hold
            (by simp only [Trie.key]
                intro h
                rw [hsCM] at h
                exact hCM_ne_k h.symm)
            (Or.inr (by simp only [Trie.key]; rw [hsCM]; exact hknp_CM))]
          simp [Trie.values]
        · by_cases hpfx_s : (c0 :: str1).take (1 + matchLen str1 k1) <+: (c0 :: s2)
          · have hCM_ne_s : (c0 :: str1).take (1 + matchLen str1 k1) ≠ c0 :: s2 :=
              fun h => hsCM h.symm
            have hds_ne := drop_ne_nil_of_proper_prefix hpfx_s hCM_ne_s
            obtain ⟨dh, ds', hds⟩ : ∃ dh ds',
                (c0 :: s2).drop ((c0 :: str1).take (1 + matchLen str1 k1)).length =
                  dh :: ds' := by
              cases hE : (c0 :: s2).drop ((c0 :: str1).take (1 + matchLen str1 k1)).length with
              | nil => exact absurd hE hds_ne
              | cons dh ds' => exact ⟨dh, ds', rfl⟩
            have hsdec : (c0 :: str1).take (1 + matchLen str1 k1) ++ (dh :: ds') =
                c0 :: s2 := by
              rw [← hds]
              exact prefix_of_append_drop hpfx_s
            have hds1 : (c0 :: s2).drop (1 + matchLen str1 k1) = dh :: ds' := by
              rw [← hCM_len]
              exact hds
            have hsm_lt_s : 1 + matchLen str1 k1 < (c0 :: s2).length := by
              have hl := congrArg List.length hsdec
              rw [List.length_append, hCM_len] at hl
              simp only [List.length_cons] at hl ⊢
              omega
            have hgs : (c0 :: s2).getD (1 + matchLen str1 k1) NULC = dh := by
              rw [← headD_drop, hds1, List.headD_cons]
            rw [contentCh_cons_pfx hself (by simpa [Trie.key] using hCM_ne_s)
              (by simpa [Trie.key] using hCM_ne_nil) (by simpa [Trie.key] using hpfx_s)]
            simp only [Trie.children, Trie.key]
            rw [hds]
            by_cases hsh : ((c0 :: str1).drop (1 + matchLen str1 k1)).headD NULC = dh
            · have hlk_leaf : lookupChild
                  [(((c0 :: str1).drop (1 + matchLen str1 k1)).headD NULC,
                    Trie.node ((c0 :: str1).drop (1 + matchLen str1 k1)) val []),
                   (((c0 :: k1).drop (1 + matchLen str1 k1)).headD NULC,
                    Trie.node ((c0 :: k1).drop (1 + matchLen str1 k1)) kv kch)] dh =
                  some (Trie.node ((c0 :: str1).drop (1 + matchLen str1 k1)) val []) := by
                simp only [lookupChild]
                rw [if_pos hsh]
              have hrhs_miss : contentCh ch (c0 :: s2) = none := by
                apply contentCh_miss_of_getD_ne hold (1 + matchLen str1 k1)
                · simpa [Trie.key] using hsame_k
                · exact hsm_lt_s
                · simp only [Trie.key]
                  rw [hgk, hgs]
                  intro h
                  exact hshoh (hsh.trans h.symm)
              by_cases hds_SS : (c0 :: str1).drop (1 + matchLen str1 k1) = dh :: ds'
              · have hs_eq_str : c0 :: s2 = c0 :: str1 := by
                  rw [← hsdec, ← hds_SS, hstr_dec]
                rw [if_pos hs_eq_str,
                  contentCh_cons_key_eq hlk_leaf (by simp only [Trie.key]; exact hds_SS)]
                simp [Trie.values, hval']
              · have hs_ne_str : ¬(c0 :: s2 = c0 :: str1) := by
                  intro h
                  apply hds_SS
                  exact (List.append_cancel_left
                    (hsdec.trans (h.trans hstr_dec.symm))).symm
                rw [if_neg hs_ne_str]
                by_cases hSSp : (c0 :: str1).drop (1 + matchLen str1 k1) <+: dh :: ds'
                · rw [contentCh_cons_pfx hlk_leaf (by simpa [Trie.key] using hds_SS)
                    (by simpa [Trie.key] using hss_ne) (by simpa [Trie.key] using hSSp)]
                  simp only [Trie.children, Trie.key]
                  rw [contentCh_nilch, hrhs_miss]
                · rw [contentCh_cons_miss hlk_leaf (by simpa [Trie.key] using hds_SS)
                    (Or.inr (by simpa [Trie.key] using hSSp)), hrhs_miss]
            · by_cases hoh : ((c0 :: k1).drop (1 + matchLen str1 k1)).headD NULC = dh
              · have hlkm : lookupChild
                    [(((c0 :: str1).drop (1 + matchLen str1 k1)).headD NULC,
                      Trie.node ((c0 :: str1).drop (1 + matchLen str1 k1)) val []),
                     (((c0 :: k1).drop (1 + matchLen str1 k1)).headD NULC,
                      Trie.node ((c0 :: k1).drop (1 + matchLen str1 k1)) kv kch)] dh =
                    some (Trie.node ((c0 :: k1).drop (1 + matchLen str1 k1)) kv kch) := by
                  simp only [lookupChild]
                  rw [if_neg hsh, if_pos hoh]
                have hs_ne_str : ¬(c0 :: s2 = c0 :: str1) := by
                  intro h
                  have h2 : (c0 :: str1).drop (1 + matchLen str1 k1) = dh :: ds' :=
                    (List.append_cancel_left
                      (hsdec.trans (h.trans hstr_dec.symm))).symm
                  exact hsh (by rw [h2, List.headD_cons])
                rw [if_neg hs_ne_str]
                exact walk_into_moved hlkm hold _ hos_ne hkdec hsdec
              · have hlkm : lookupChild
                    [(((c0 :: str1).drop (1 + matchLen str1 k1)).headD NULC,
                      Trie.node ((c0 :: str1).drop (1 + matchLen str1 k1)) val []),
                     (((c0 :: k1).drop (1 + matchLen str1 k1)).headD NULC,
                      Trie.node ((c0 :: k1).drop (1 + matchLen str1 k1)) kv kch)] dh =
                    none := by
                  simp only [lookupChild]
                  rw [if_neg hsh, if_neg hoh]
                have hs_ne_str : ¬(c0 :: s2 = c0 :: str1) := by
                  intro h
                  have h2 : (c0 :: str1).drop (1 + matchLen str1 k1) = dh :: ds' :=
                    (List.append_cancel_left
                      (hsdec.trans (h.trans hstr_dec.symm))).symm
                  exact hsh (by rw [h2, List.headD_cons])
                rw [if_neg hs_ne_str, contentCh_cons_none hlkm]
                symm
                apply contentCh_miss_of_getD_ne hold (1 + matchLen str1 k1)
                · simpa [Trie.key] using hsame_k
                · exact hsm_lt_s
                · simp only [Trie.key]
                  rw [hgk, hgs]
                  exact hoh
          · have hs_ne_str : ¬(c0 :: s2 = c0 :: str1) := by
              intro h
              exact hpfx_s (by rw [h]; exact hCM_pfx_str)
            rw [if_neg hs_ne_str]
            rw [contentCh_cons_miss hself
              (by simp only [Trie.key]; exact fun h => hsCM h.symm)
              (Or.inr (by simpa [Trie.key] using hpfx_s))]
            rw [contentCh_cons_miss hold
              (by simp only [Trie.key]; exact fun h => hpfx_s (h ▸ hCM_pfx_k))
              (Or.inr (by simp only [Trie.key]; exact fun h => hpfx_s (hCM_pfx_k.trans h)))]

/-! ## Lifting to whole-trie statements and registration sequences -/

theorem wf_set {V : Type} (t : Trie V) (str : List Char) (val : List V)
    (hwf : wfCh t.children = true) (hne : str ≠ []) :
    wfCh (t.set str val).children = true := by
  obtain ⟨k0, v0, ch⟩ := t
  simp only [Trie.set, Trie.children] at *
  exact (set_preserves_wf str.length str (le_refl _) hne val).2 ch hwf

theorem clean_set {V : Type} (t : Trie V) (str : List Char) (val : List V)
    (hwf : wfCh t.children = true) (hcl : cleanCh t.children = true)
    (hne : str ≠ []) (hnul : noNul str = true) :
    cleanCh (t.set str val).children = true := by
  obtain ⟨k0, v0, ch⟩ := t
  simp only [Trie.set, Trie.children] at *
  exact (set_preserves_clean str.length str (le_refl _) hne hnul val).2 ch hwf hcl

theorem content_set {V : Type} (t : Trie V) (str : List Char) (val : List V)
    (hwf : wfCh t.children = true) (hcl : cleanCh t.children = true)
    (hne : str ≠ []) (hval : val ≠ []) (s : List Char) :
    content (t.set str val) s = if s = str then some val else content t s := by
  obtain ⟨k0, v0, ch⟩ := t
  simp only [Trie.set, content, Trie.children] at *
  exact contentCh_set str.length str (le_refl _) hne val hval ch hwf hcl s

theorem content_foldl {V : Type} :
    ∀ (ops : List (List Char × List V)) (t : Trie V),
      wfCh t.children = true → cleanCh t.children = true →
      (∀ p ∈ ops, p.1 ≠ [] ∧ noNul p.1 = true ∧ p.2 ≠ []) →
      ∀ s, content (ops.foldl (fun t p => t.set p.1 p.2) t) s =
        (match lastVal ops s with
         | some w => some w
         | none => content t s) := by
  intro ops
  induction ops with
  | nil => intro t _ _ _ s; rfl
  | cons p rest ih =>
    intro t hwf hcl hops s
    obtain ⟨k, v⟩ := p
    obtain ⟨hp1, hp2, hp3⟩ := hops (k, v) (by simp)
    have hops' : ∀ q ∈ rest, q.1 ≠ [] ∧ noNul q.1 = true ∧ q.2 ≠ [] :=
      fun q hq => hops q (by simp [hq])
    simp only [List.foldl_cons]
    rw [ih (t.set k v) (wf_set t k v hwf hp1) (clean_set t k v hwf hcl hp1 hp2) hops' s]
    cases h : lastVal rest s with
    | some w => simp only [lastVal, h]
    | none =>
      simp only [lastVal, h]
      rw [content_set t k v hwf hcl hp1 hp3 s]
      by_cases hs : s = k
      · simp [hs]
      · simp [hs]

theorem lastVal_perm {V : Type} {ops ops' : List (List Char × List V)}
    (hperm : ops.Perm ops') :
    (ops.map Prod.fst).Nodup → ∀ s, lastVal ops s = lastVal ops' s := by
  induction hperm with
  | nil => intro _ _; rfl
  | cons x p ih =>
    intro hnd s
    simp only [List.map_cons, List.nodup_cons] at hnd
    simp only [lastVal, ih hnd.2 s]
  | swap x y l =>
    intro hnd s
    simp only [List.map_cons, List.nodup_cons, List.mem_cons] at hnd
    have hxy : y.1 ≠ x.1 := fun h => hnd.1 (Or.inl h)
    cases h : lastVal l s with
    | some w => simp [lastVal, h]
    | none =>
      simp only [lastVal, h]
      have hxy2 : ¬(x.1 = y.1) := fun hh => hxy hh.symm
      by_cases hsx : s = x.1
      · simp [hsx, hxy2]
      · by_cases hsy : s = y.1
        · simp [hsx, hsy, hxy]
        · simp [hsx, hsy]
  | trans p1 p2 ih1 ih2 =>
    intro hnd s
    rw [ih1 hnd s, ih2 (((p1.map Prod.fst).nodup_iff).mp hnd) s]

theorem lastVal_append {V : Type} (l1 l2 : List (List Char × List V)) (s : List Char) :
    lastVal (l1 ++ l2) s =
      (match lastVal l2 s with
       | some w => some w
       | none => lastVal l1 s) := by
  induction l1 with
  | nil =>
    simp only [List.nil_append, lastVal]
    cases lastVal l2 s <;> rfl
  | cons p rest ih =>
    simp only [List.cons_append, List.append_eq, lastVal] at ih ⊢
    rw [ih]
    cases h : lastVal l2 s with
    | some w => simp [h]
    | none => simp [h]

theorem wf_build {V : Type} (ops : List (List Char × List V))
    (hops : ∀ p ∈ ops, p.1 ≠ []) : wfCh (build ops : Trie V).children = true := by
  suffices h : ∀ (t : Trie V), wfCh t.children = true →
      wfCh (ops.foldl (fun t p => t.set p.1 p.2) t).children = true by
    exact h emptyT rfl
  induction ops with
  | nil => intro t h; exact h
  | cons p rest ih =>
    intro t h
    simp only [List.foldl_cons]
    exact ih (fun q hq => hops q (by simp [hq])) _ (wf_set t p.1 p.2 h (hops p (by simp)))

theorem clean_build {V : Type} (ops : List (List Char × List V))
    (hops : ∀ p ∈ ops, p.1 ≠ [] ∧ noNul p.1 = true) :
    cleanCh (build ops : Trie V).children = true := by
  suffices h : ∀ (t : Trie V), wfCh t.children = true → cleanCh t.children = true →
      cleanCh (ops.foldl (fun t p => t.set p.1 p.2) t).children = true by
    exact h emptyT rfl rfl
  induction ops with
  | nil => intro t _ h; exact h
  | cons p rest ih =>
    intro t hw h
    simp only [List.foldl_cons]
    exact ih (fun q hq => hops q (by simp [hq])) _
      (wf_set t p.1 p.2 hw (hops p (by simp)).1)
      (clean_set t p.1 p.2 hw h (hops p (by simp)).1 (hops p (by simp)).2)

theorem content_build {V : Type} (ops : List (List Char × List V))
    (hops : ∀ p ∈ ops, p.1 ≠ [] ∧ noNul p.1 = true ∧ p.2 ≠ []) (s : List Char) :
    content (build ops : Trie V) s = lastVal ops s := by
  have h := content_foldl ops emptyT rfl rfl hops s
  rw [build] at *
  rw [h]
  cases hh : lastVal ops s with
  | some w => simp [hh]
  | none =>
    simp only [hh]
    exact contentCh_nilch s

/-! ## Tokenizer lemmas -/

/-- The symbol-termination half of the boundary test of `next_token`:
`find_exact(str)` is a node whose first value is SYMBOL, and it is either
terminal or the lookahead `find_exact(str + peek)` misses. -/
def symStop (t : Trie TokenType) (s : List Char) (peekc : Char) : Bool :=
  match t.find_exact s with
  | some (.node _ (.SYMBOL :: _) uch) =>
    uch.isEmpty || (t.find_exact (s ++ [peekc])).isNone
  | _ => false

/-- A boundary rule of `next_token` fires at position `n` of input `w`:
either `hit_word_boundry` between the previous byte and `w[n]`, or the
symbol-termination rule on the text accumulated before `w[n]` with the
lookahead byte `w[n+1]` (EOF when absent). -/
def fireAt (t : Trie TokenType) (w : List Char) (n : Nat) : Bool :=
  hitWordBoundry (if n = 0 then NULC else w.getD (n-1) NULC) (w.getD n NULC) ||
  symStop t (w.take n) ((w.drop (n+1)).headD EOFC)

theorem scanLoop_exhaust (t : Trie TokenType) :
    ∀ (data : List Char) (p : Char) (str : List Char),
      (∀ n, n < data.length →
        hitWordBoundry (if n = 0 then p else data.getD (n-1) NULC) (data.getD n NULC) = false ∧
        symStop t (str ++ data.take n) ((data.drop (n+1)).headD EOFC) = false) →
      scanLoop t p str true data = (⟨.END, []⟩, ⟨[], false⟩) := by
  intro data
  induction data with
  | nil => intro p str _; rfl
  | cons c rest ih =>
    intro p str hf
    obtain ⟨h0a, h0b⟩ := hf 0 (by simp)
    simp only [if_pos rfl, if_true, eq_self_iff_true, List.getD_cons_zero, List.take_zero,
      List.append_nil, List.drop_succ_cons, List.drop_zero] at h0a h0b
    have hshift : ∀ n, n < rest.length →
        hitWordBoundry (if n = 0 then c else rest.getD (n-1) NULC) (rest.getD n NULC) = false ∧
        symStop t ((str ++ [c]) ++ rest.take n) ((rest.drop (n+1)).headD EOFC) = false := by
      intro n hn
      obtain ⟨ha, hb⟩ := hf (n+1) (by simp only [List.length_cons]; omega)
      constructor
      · cases n with
        | zero => simpa using ha
        | succ m => simpa using ha
      · have : str ++ (c :: rest).take (n+1) = (str ++ [c]) ++ rest.take n := by
          rw [List.take_succ_cons, ← List.append_cons]
        rw [← this]
        simpa using hb
    simp only [scanLoop]
    rw [h0a]
    simp only [Bool.false_eq_true, if_false]
    cases hit : t.find_exact str with
    | none =>
      simp only [hit]
      exact ih c (str ++ [c]) hshift
    | some u =>
      obtain ⟨uk, uv, uch⟩ := u
      cases uv with
      | nil =>
        simp only [hit]
        exact ih c (str ++ [c]) hshift
      | cons v0 uvs =>
        cases v0 with
        | SYMBOL =>
          simp only [symStop, hit] at h0b
          rw [Bool.or_eq_false_iff] at h0b
          obtain ⟨hterm, hpeek⟩ := h0b
          simp only [hit, hterm, Bool.false_eq_true, if_false]
          cases rest with
          | nil =>
            simp only [List.headD_nil] at hpeek
            simp only [hpeek, Bool.false_eq_true, if_false]
          | cons d rest' =>
            simp only [List.headD_cons] at hpeek
            simp only [hpeek, Bool.false_eq_true, if_false]
            exact ih c (str ++ [c]) hshift
        | END =>
          simp only [hit]
          exact ih c (str ++ [c]) hshift
        | USER =>
          simp only [hit]
          exact ih c (str ++ [c]) hshift
        | KEYWORD =>
          simp only [hit]
          exact ih c (str ++ [c]) hshift

theorem nextToken_exhaust (t : Trie TokenType) (w : List Char)
    (hws : isSpaceC (w.headD NULC) = false)
    (hf : ∀ n, n < w.length → fireAt t w n = false) :
    nextToken t ⟨w, true⟩ = (⟨.END, []⟩, ⟨[], false⟩) := by
  cases w with
  | nil => rfl
  | cons c rest =>
    have hws' : isSpaceC c = false := hws
    have hskip : skipWs (c :: rest) true = (c :: rest, true) := by
      simp only [skipWs, hws', Bool.false_eq_true, if_false]
    show scanLoop t NULC [] (skipWs (c :: rest) true).2 (skipWs (c :: rest) true).1 =
      (⟨.END, []⟩, ⟨[], false⟩)
    rw [hskip]
    apply scanLoop_exhaust
    intro n hn
    have := hf n hn
    rw [fireAt, Bool.or_eq_false_iff] at this
    exact ⟨this.1, by simpa using this.2⟩

theorem nextToken_empty_stream (t : Trie TokenType) (g : Bool) :
    nextToken t ⟨[], g⟩ = (⟨.END, []⟩, ⟨[], false⟩) := by
  cases g <;> rfl

theorem nextTokens_empty_stream (t : Trie TokenType) (g : Bool) (n : Nat) :
    nextTokens t n ⟨[], g⟩ = List.replicate n ⟨.END, []⟩ := by
  induction n generalizing g with
  | zero => rfl
  | succ m ih =>
    simp only [nextTokens, nextToken_empty_stream, List.replicate_succ]
    exact congrArg _ (ih false)

/-! ## Lemmas about find_exact -/

theorem find_exact_set_fresh {V : Type} (t : Trie V) (c : Char) (l : List Char) (v : List V)
    (hfresh : lookupChild t.children c = none) :
    (t.set (c :: l) v).find_exact (c :: l) = some (.node (c :: l) v []) := by
  obtain ⟨k0, v0, ch⟩ := t
  simp only [Trie.set, Trie.find_exact, Trie.children, List.headD_cons] at *
  rw [lookupChild_setChildren_self_none _ _ hfresh]
  simp [Trie.key]

theorem find_exact_set_other {V : Type} (t : Trie V) (K L : List Char) (v : List V)
    (hne : K.headD NULC ≠ L.headD NULC) :
    (t.set K v).find_exact L = t.find_exact L := by
  obtain ⟨k0, v0, ch⟩ := t
  simp only [Trie.set, Trie.find_exact, Trie.children]
  rw [lookupChild_setChildren_ne _ _ _ _ _ (fun h => hne h.symm)]

theorem find_exact_sound {V : Type} (t : Trie V) (s : List Char) (u : Trie V)
    (hwf : wfCh t.children = true) (hfe : t.find_exact s = some u) :
    u.key = s ∧ lookupChild t.children (s.headD NULC) = some u ∧
      semLookup t s = some u.values := by
  have hfe' := hfe
  rw [Trie.find_exact] at hfe'
  cases hlk : lookupChild t.children (s.headD NULC) with
  | none => rw [hlk] at hfe'; exact absurd hfe' (by simp)
  | some w =>
    rw [hlk] at hfe'
    have hfe2 : (if w.key = s then some w else none) = some u := hfe'
    by_cases hk : w.key = s
    · rw [if_pos hk] at hfe2
      have huw : w = u := by simpa using hfe2
      rw [huw] at hk hlk
      refine ⟨hk, by rw [huw], ?_⟩
      have hwfw := wfCh_lookup _ _ _ hwf hlk
      obtain ⟨wk, wv, wch⟩ := u
      rw [wfT_node] at hwfw
      cases s with
      | nil =>
        simp only [Trie.key] at hk
        exact absurd hk hwfw.1
      | cons c s2 =>
        simp only [List.headD_cons] at hlk
        exact semCh_cons_key_eq hlk hk
    · rw [if_neg hk] at hfe2
      exact absurd hfe2 (by simp)

/-! ## Concrete registration fixtures used by the claims -/

/-- Trie with the symbols `"="` and `"=="` registered (in that order,
as `main` does). -/
def trieEq : Trie TokenType := build [(['='], [.SYMBOL]), (['=', '='], [.SYMBOL])]

/-- Trie with the keyword `"if"` registered. -/
def trieIf : Trie TokenType := build [(['i', 'f'], [.KEYWORD])]

/-- Trie with the keyword `"if"` and the symbols `"("`, `")"` registered. -/
def trieIfParens : Trie TokenType :=
  build [(['i', 'f'], [.KEYWORD]), (['('], [.SYMBOL]), ([')'], [.SYMBOL])]

/-- Trie with `"a"` (keyword) and `"ab"` (symbol) registered. -/
def trieAB : Trie TokenType := build [(['a'], [.KEYWORD]), (['a', 'b'], [.SYMBOL])]

/-! ## Claim theorems -/

/-- Claim C1, counterexample: the insert/exact-lookup round trip fails as
soon as two literals share a first byte.  After `set "a"; set "ab"` the
key `"ab"` is stored one level deep, and the non-recursive `find_exact`
returns none for it; likewise, inserting `"a"` after `"ab"` splits the
node and makes the previously retrievable `"ab"` unfindable. -/
theorem claimC1_counterexample :
    trieAB.find_exact ['a', 'b'] = none ∧
    ((build [((['a', 'b'] : List Char), [TokenType.SYMBOL])]).find_exact
      ['a', 'b']).map Trie.values = some [.SYMBOL] ∧
    (build [((['a', 'b'] : List Char), [TokenType.SYMBOL]),
      (['a'], [.KEYWORD])]).find_exact ['a', 'b'] = none := by
  refine ⟨rfl, rfl, rfl⟩

/-- Claim C1, amended: the round trip `set` / `find_exact` holds exactly
for keys stored at depth one.  If no child occupies the slot of `L`'s
first byte, then after `set(L, V)` the lookup `find_exact(L)` returns a
node whose values equal `V`; and any later `set` with a key whose first
byte differs leaves `find_exact(L)` unchanged.  (When literals sharing
`L`'s first byte are involved, `find_exact(L)` may return none, as the
counterexample shows.) -/
theorem claimC1_amended :
    (∀ (t : Trie TokenType) (c : Char) (l : List Char) (v : List TokenType),
      lookupChild t.children c = none →
      ((t.set (c :: l) v).find_exact (c :: l)).map Trie.values = some v) ∧
    (∀ (t : Trie TokenType) (K L : List Char) (v : List TokenType),
      K.headD NULC ≠ L.headD NULC →
      (t.set K v).find_exact L = t.find_exact L) := by
  constructor
  · intro t c l v hfresh
    rw [find_exact_set_fresh t c l v hfresh]
    rfl
  · intro t K L v hne
    exact find_exact_set_other t K L v hne

/-- Claim C1, witness: the amended round trip evaluated on the empty trie
with literal `"ab"` and a later first-byte-disjoint insertion `"x"`. -/
theorem claimC1_witness :
    ((Trie.set emptyT ['a', 'b'] [TokenType.SYMBOL]).find_exact ['a', 'b']).map
      Trie.values = some [.SYMBOL] ∧
    (Trie.set (Trie.set emptyT ['a', 'b'] [TokenType.SYMBOL]) ['x'] [.KEYWORD]).find_exact
      ['a', 'b'] = (Trie.set emptyT ['a', 'b'] [TokenType.SYMBOL]).find_exact ['a', 'b'] :=
  ⟨claimC1_amended.1 emptyT 'a' ['b'] [.SYMBOL] rfl,
   claimC1_amended.2 (Trie.set emptyT ['a', 'b'] [TokenType.SYMBOL]) ['x'] ['a', 'b']
     [.KEYWORD] (by decide)⟩

/-- Claim C2: maximal munch fails in the code.  With `"="` and `"=="`
registered (in that order), the node for `"=="` sits one level deep and
the non-recursive `find_exact` never finds it, so the scanner stops at
`"="`: input `"== "` produces two SYMBOL `"="` tokens, and input `"=="`
produces one SYMBOL `"="` (the second byte is silently dropped at end of
stream) — never one SYMBOL `"=="` token.  The last two conjuncts exhibit
the root cause: the full-path node for `"=="` exists but `find_exact`
misses it. -/
theorem claimC2_theorem :
    nextTokens trieEq 3 ⟨['=', '=', ' '], true⟩ =
      [⟨.SYMBOL, ['=']⟩, ⟨.SYMBOL, ['=']⟩, ⟨.END, []⟩] ∧
    nextTokens trieEq 2 ⟨['=', '='], true⟩ = [⟨.SYMBOL, ['=']⟩, ⟨.END, []⟩] ∧
    trieEq.find_exact ['=', '='] = none ∧
    semLookup trieEq ['=', '='] = some [.SYMBOL] := by
  refine ⟨by decide, by decide, rfl, by decide⟩

/-- Claim C3, counterexample: a node whose full path string is `"ab"`
exists in `trieAB` (the recursive full-path lookup finds it), yet
`find_exact "ab"` returns none — `find_exact` does not walk the trie. -/
theorem claimC3_counterexample :
    semLookup trieAB ['a', 'b'] = some [.SYMBOL] ∧
    trieAB.find_exact ['a', 'b'] = none := by
  refine ⟨by decide, rfl⟩

/-- Claim C3, amended: `find_exact(s)` inspects only the root's immediate
children: it returns the occupant of slot `s[0]` exactly when that
child's key equals `s` in full; such a hit is a genuine full-path match
(on a well-formed trie), but nodes whose full path equals `s` deeper than
one level are never found. -/
theorem claimC3_amended (t : Trie TokenType) (s : List Char) (u : Trie TokenType)
    (hwf : wfCh t.children = true) :
    (t.find_exact s = some u ↔
      (lookupChild t.children (s.headD NULC) = some u ∧ u.key = s)) ∧
    (t.find_exact s = some u → semLookup t s = some u.values) := by
  constructor
  · constructor
    · intro hfe
      have h := find_exact_sound t s u hwf hfe
      exact ⟨h.2.1, h.1⟩
    · intro ⟨hlk, hk⟩
      rw [Trie.find_exact, hlk]
      show (if u.key = s then some u else none) = some u
      rw [if_pos hk]
  · intro hfe
    exact (find_exact_sound t s u hwf hfe).2.2

/-- Claim C3, witness: the amended characterisation evaluated on
`trieAB` at the depth-one key `"a"`. -/
theorem claimC3_witness :
    trieAB.find_exact ['a'] =
      some (.node ['a'] [.KEYWORD] [('b', .node ['b'] [.SYMBOL] [])]) ∧
    semLookup trieAB ['a'] = some [.KEYWORD] := by
  have h := claimC3_amended trieAB ['a']
    (.node ['a'] [.KEYWORD] [('b', .node ['b'] [.SYMBOL] [])]) (by decide)
  have hfe : trieAB.find_exact ['a'] =
      some (.node ['a'] [.KEYWORD] [('b', .node ['b'] [.SYMBOL] [])]) :=
    h.1.mpr ⟨rfl, rfl⟩
  exact ⟨hfe, h.2 hfe⟩

/-- Claim C4: when the stream is exhausted during accumulation without
any boundary rule having fired (no `hit_word_boundry` hit and no
symbol-termination hit at any position), `next_token` returns an END
token with empty text and the accumulated characters are discarded. -/
theorem claimC4_theorem (t : Trie TokenType) (w : List Char)
    (hws : isSpaceC (w.headD NULC) = false)
    (hf : ∀ n, n < w.length → fireAt t w n = false) :
    nextToken t ⟨w, true⟩ = (⟨.END, []⟩, ⟨[], false⟩) :=
  nextToken_exhaust t w hws hf

/-- Claim C4, witness: with only `"if"` registered, the trailing run
`"ifx"` is dropped and END is returned. -/
theorem claimC4_witness :
    nextToken trieIf ⟨['i', 'f', 'x'], true⟩ = (⟨.END, []⟩, ⟨[], false⟩) :=
  claimC4_theorem trieIf ['i', 'f', 'x'] (by decide) (by decide)

/-- Claim C5, counterexample: with `"if"` registered, scanning the bare
input `"ifx"` does not produce a USER token `"ifx"` — the stream ends
during accumulation and the scanner returns END with empty text. -/
theorem claimC5_counterexample :
    (nextToken trieIf ⟨['i', 'f', 'x'], true⟩).1 = ⟨.END, []⟩ ∧
    (nextToken trieIf ⟨['i', 'f', 'x'], true⟩).1 ≠ ⟨.USER, ['i', 'f', 'x']⟩ := by
  decide

/-- Claim C5, amended: the scanner never splits the alphanumeric run
`"ifx"` at the registered prefix `"if"` — no KEYWORD token is ever
emitted; with a word-boundary byte after the run (input `"ifx "`) the
whole run is emitted as one USER token `"ifx"`, while on the bare input
`"ifx"` the run is silently dropped at end of stream and END is
returned. -/
theorem claimC5_amended :
    (nextToken trieIf ⟨['i', 'f', 'x', ' '], true⟩).1 = ⟨.USER, ['i', 'f', 'x']⟩ ∧
    (nextToken trieIf ⟨['i', 'f', 'x'], true⟩).1 = ⟨.END, []⟩ ∧
    (∀ tok ∈ nextTokens trieIf 4 ⟨['i', 'f', 'x', ' '], true⟩, tok.type ≠ .KEYWORD) ∧
    (∀ tok ∈ nextTokens trieIf 4 ⟨['i', 'f', 'x'], true⟩, tok.type ≠ .KEYWORD) := by
  decide

/-- Claim C6, counterexample: on input `"if(x)"` the fourth call of
`next_token` does not yield `SYMBOL ")"` — the trailing `")"` is dropped
at end of stream and END is returned instead. -/
theorem claimC6_counterexample :
    nextTokens trieIfParens 5 ⟨['i', 'f', '(', 'x', ')'], true⟩ =
      [⟨.KEYWORD, ['i', 'f']⟩, ⟨.SYMBOL, ['(']⟩, ⟨.USER, ['x']⟩, ⟨.END, []⟩, ⟨.END, []⟩] ∧
    nextTokens trieIfParens 5 ⟨['i', 'f', '(', 'x', ')'], true⟩ ≠
      [⟨.KEYWORD, ['i', 'f']⟩, ⟨.SYMBOL, ['(']⟩, ⟨.USER, ['x']⟩, ⟨.SYMBOL, [')']⟩,
        ⟨.END, []⟩] := by
  decide

/-- Claim C6, amended: input `"if(x)"` yields `KEYWORD "if"`,
`SYMBOL "("`, `USER "x"`, then `END ""` (the final `")"` is discarded
because end of stream is reached while it is being accumulated); with a
trailing space (`"if(x) "`) the originally claimed sequence including
`SYMBOL ")"` appears. -/
theorem claimC6_amended :
    nextTokens trieIfParens 4 ⟨['i', 'f', '(', 'x', ')'], true⟩ =
      [⟨.KEYWORD, ['i', 'f']⟩, ⟨.SYMBOL, ['(']⟩, ⟨.USER, ['x']⟩, ⟨.END, []⟩] ∧
    nextTokens trieIfParens 5 ⟨['i', 'f', '(', 'x', ')', ' '], true⟩ =
      [⟨.KEYWORD, ['i', 'f']⟩, ⟨.SYMBOL, ['(']⟩, ⟨.USER, ['x']⟩, ⟨.SYMBOL, [')']⟩,
        ⟨.END, []⟩] := by
  decide

/-- Claim C7: every trie built from the empty trie by a sequence of
`set` operations with non-empty keys is well-formed: every child node is
stored in its parent's map under exactly the first byte of its key
segment, the key segments are non-empty, and no two siblings share a
slot byte (so the first bytes of distinct siblings' keys are distinct). -/
theorem claimC7_theorem (ops : List (List Char × List TokenType))
    (hops : ∀ p ∈ ops, p.1 ≠ []) :
    wfCh (build ops : Trie TokenType).children = true :=
  wf_build ops hops

/-- Claim C7, witness: the invariant evaluated on a prefix-overlapping
registration sequence that exercises the node-splitting case. -/
theorem claimC7_witness :
    wfCh (build [((['a'] : List Char), [TokenType.KEYWORD]), (['a', 'b'], [.SYMBOL]),
      (['a', 'c'], [.SYMBOL]), (['b'], [.SYMBOL])] : Trie TokenType).children = true :=
  claimC7_theorem _ (by decide)

/-- Claim C8, counterexample: with literals containing an embedded NUL
byte, registration order changes the final trie content.  `strncmp`
stops at the NUL, so inserting `"a\x00c"` over `"a\x00b"` overwrites the
latter's values instead of splitting; the two insertion orders give
different content at `"a\x00b"`. -/
theorem claimC8_counterexample :
    content (build [((['a', NULC, 'b'] : List Char), [TokenType.KEYWORD]),
      (['a', NULC, 'c'], [.SYMBOL])]) ['a', NULC, 'b'] ≠
    content (build [((['a', NULC, 'c'] : List Char), [TokenType.SYMBOL]),
      (['a', NULC, 'b'], [.KEYWORD])]) ['a', NULC, 'b'] := by
  decide

/-- Claim C8, amended: for registration pairs whose literals are
non-empty, NUL-free and distinct (value lists non-empty), any two
registration orders produce the same trie content — the same mapping
from full path strings to registered value lists; and when the same
literal is registered twice, the value list of the last `set` wins. -/
theorem claimC8_amended :
    (∀ (ops ops' : List (List Char × List TokenType)) (s : List Char),
      (∀ p ∈ ops, p.1 ≠ [] ∧ noNul p.1 = true ∧ p.2 ≠ []) →
      (ops.map Prod.fst).Nodup → ops.Perm ops' →
      content (build ops) s = content (build ops') s) ∧
    (∀ (ops : List (List Char × List TokenType)) (k : List Char) (v1 v2 : List TokenType),
      (∀ p ∈ ops, p.1 ≠ [] ∧ noNul p.1 = true ∧ p.2 ≠ []) →
      k ≠ [] → noNul k = true → v1 ≠ [] → v2 ≠ [] →
      content (build (ops ++ [(k, v1), (k, v2)])) k = some v2) := by
  constructor
  · intro ops ops' s hops hnd hperm
    have hops' : ∀ p ∈ ops', p.1 ≠ [] ∧ noNul p.1 = true ∧ p.2 ≠ [] :=
      fun p hp => hops p (hperm.mem_iff.mpr hp)
    rw [content_build ops hops s, content_build ops' hops' s]
    exact lastVal_perm hperm hnd s
  · intro ops k v1 v2 hops hk hnul hv1 hv2
    have hops2 : ∀ p ∈ ops ++ [(k, v1), (k, v2)],
        p.1 ≠ [] ∧ noNul p.1 = true ∧ p.2 ≠ [] := by
      intro p hp
      rcases List.mem_append.mp hp with h | h
      · exact hops p h
      · rcases List.mem_cons.mp h with h2 | h2
        · rw [h2]; exact ⟨hk, hnul, hv1⟩
        · rcases List.mem_cons.mp h2 with h3 | h3
          · rw [h3]; exact ⟨hk, hnul, hv2⟩
          · exact absurd h3 (List.not_mem_nil p)
    rw [content_build _ hops2 k, lastVal_append]
    simp [lastVal]

/-- Claim C8, witness: order independence for the first-byte-sharing
pair `"="`, `"=="`, and last-wins for a repeated literal `"a"`. -/
theorem claimC8_witness :
    content (build [((['='] : List Char), [TokenType.SYMBOL]),
      (['=', '='], [.SYMBOL])]) ['=', '='] =
      content (build [((['=', '='] : List Char), [TokenType.SYMBOL]),
        (['='], [.SYMBOL])]) ['=', '='] ∧
    content (build ([] ++ [((['a'] : List Char), [TokenType.KEYWORD]),
      (['a'], [.SYMBOL])])) ['a'] = some [.SYMBOL] :=
  ⟨claimC8_amended.1 _ _ ['=', '='] (by decide) (by decide) (List.Perm.swap _ _ _),
   claimC8_amended.2 [] ['a'] [.KEYWORD] [.SYMBOL] (by simp) (by decide) (by decide)
     (by decide) (by decide)⟩

/-- Claim C9: once the input stream is fully consumed, every call of
`next_token` returns an END token with empty text, idempotently and
without any error path: `n` further calls return `n` END tokens, for
either state of the good flag. -/
theorem claimC9_theorem (t : Trie TokenType) (g : Bool) (n : Nat) :
    nextTokens t n ⟨[], g⟩ = List.replicate n ⟨.END, []⟩ ∧
    nextToken t ⟨[], g⟩ = (⟨.END, []⟩, ⟨[], false⟩) :=
  ⟨nextTokens_empty_stream t g n, nextToken_empty_stream t g⟩

/-- Claim C10, counterexample: `set` with the empty key is not rejected:
it silently adds a degenerate node with empty key under the NUL slot of
the children map (the value of `str[0]` for an empty C++ string). -/
theorem claimC10_counterexample :
    (Trie.find_partial (Trie.set (emptyT : Trie TokenType) [] [.SYMBOL]) NULC).map
      Trie.key = some [] ∧
    (Trie.set (emptyT : Trie TokenType) [] [.SYMBOL]).children.length = 1 ∧
    ((emptyT : Trie TokenType).children.length = 0) := by
  refine ⟨rfl, rfl, rfl⟩

/-- Claim C10, amended: there is no fail-fast path: `set("")` on the
empty trie silently accepts the empty literal, creating a node with
empty key and the given values under the NUL child slot. -/
theorem claimC10_amended (v : List TokenType) :
    Trie.find_partial (Trie.set (emptyT : Trie TokenType) [] v) NULC =
      some (.node [] v []) ∧
    Trie.find_partial (emptyT : Trie TokenType) NULC = none :=
  ⟨rfl, rfl⟩
